import Mathlib

/-!
# NovaAi relay protocol and tool-call parser: a shallow embedding

This file embeds, in Lean, the parts of the NovaAi repository that its
specification makes checkable claims about:

* the `SimpleMessage` wire format (`src/relay_server.py` and
  `src/backups/ai_codebox_app.py`), including a model of Python's
  `json.dumps(..., ensure_ascii=False)` / `json.loads` on the JSON fragment
  the protocol uses (null, booleans, integers, strings, arrays, objects;
  floating-point numbers and `\uXXXX` surrogate halves are outside the model,
  and neither is produced by the serializer being modelled);
* the `TOOL_ACTION(...)` parser of `src/emergency_agent/app.py`
  (`TOOL_ACTION_PATTERN`, `parse_tool_action`) together with the Python
  regex and `str.replace` semantics it relies on;
* the dispatcher `process_ai_response_with_complete_feedback`;
* the `RelayBridge` accept loop and client read loop, the `RelayManager`
  launch/stop logic, and the GUI-side `BridgeClient` read loop.

Strings from the Python side are modelled as `List Char` (Python strings are
sequences of Unicode scalar values in every input these claims touch).
All definitions are executable; recursion that Python performs on shrinking
buffers is expressed with an explicit fuel argument so that every function
evaluates by kernel reduction.
-/

namespace NovaAi

/-- JSON values as Python's `json` module represents them for this protocol:
`None`, `bool`, `int`, `str`, `list`, `dict` (insertion-ordered). -/
inductive JVal where
  | null : JVal
  | bool : Bool → JVal
  | num : Int → JVal
  | str : List Char → JVal
  | arr : List JVal → JVal
  | obj : List (List Char × JVal) → JVal

mutual

/-- Structural equality test on `JVal` (Python `==` on the decoded values). -/
def JVal.beq : JVal → JVal → Bool
  | .null, .null => true
  | .bool x, .bool y => x == y
  | .num x, .num y => x == y
  | .str x, .str y => x == y
  | .arr xs, .arr ys => JVal.beqList xs ys
  | .obj xs, .obj ys => JVal.beqMems xs ys
  | _, _ => false

def JVal.beqList : List JVal → List JVal → Bool
  | [], [] => true
  | x :: xs, y :: ys => JVal.beq x y && JVal.beqList xs ys
  | _, _ => false

def JVal.beqMems : List (List Char × JVal) → List (List Char × JVal) → Bool
  | [], [] => true
  | (k1, v1) :: xs, (k2, v2) :: ys => k1 == k2 && JVal.beq v1 v2 && JVal.beqMems xs ys
  | _, _ => false

end

mutual

theorem JVal.beq_iff : (a b : JVal) → (JVal.beq a b = true ↔ a = b)
  | .null, .null => by simp [JVal.beq]
  | .bool x, .bool y => by simp [JVal.beq]
  | .num x, .num y => by simp [JVal.beq]
  | .str x, .str y => by simp [JVal.beq]
  | .arr xs, .arr ys => by
    simp only [JVal.beq, JVal.beqList_iff xs ys, JVal.arr.injEq]
  | .obj xs, .obj ys => by
    simp only [JVal.beq, JVal.beqMems_iff xs ys, JVal.obj.injEq]
  | .null, .bool _ => by simp [JVal.beq]
  | .null, .num _ => by simp [JVal.beq]
  | .null, .str _ => by simp [JVal.beq]
  | .null, .arr _ => by simp [JVal.beq]
  | .null, .obj _ => by simp [JVal.beq]
  | .bool _, .null => by simp [JVal.beq]
  | .bool _, .num _ => by simp [JVal.beq]
  | .bool _, .str _ => by simp [JVal.beq]
  | .bool _, .arr _ => by simp [JVal.beq]
  | .bool _, .obj _ => by simp [JVal.beq]
  | .num _, .null => by simp [JVal.beq]
  | .num _, .bool _ => by simp [JVal.beq]
  | .num _, .str _ => by simp [JVal.beq]
  | .num _, .arr _ => by simp [JVal.beq]
  | .num _, .obj _ => by simp [JVal.beq]
  | .str _, .null => by simp [JVal.beq]
  | .str _, .bool _ => by simp [JVal.beq]
  | .str _, .num _ => by simp [JVal.beq]
  | .str _, .arr _ => by simp [JVal.beq]
  | .str _, .obj _ => by simp [JVal.beq]
  | .arr _, .null => by simp [JVal.beq]
  | .arr _, .bool _ => by simp [JVal.beq]
  | .arr _, .num _ => by simp [JVal.beq]
  | .arr _, .str _ => by simp [JVal.beq]
  | .arr _, .obj _ => by simp [JVal.beq]
  | .obj _, .null => by simp [JVal.beq]
  | .obj _, .bool _ => by simp [JVal.beq]
  | .obj _, .num _ => by simp [JVal.beq]
  | .obj _, .str _ => by simp [JVal.beq]
  | .obj _, .arr _ => by simp [JVal.beq]

theorem JVal.beqList_iff : (xs ys : List JVal) → (JVal.beqList xs ys = true ↔ xs = ys)
  | [], [] => by simp [JVal.beqList]
  | [], _ :: _ => by simp [JVal.beqList]
  | _ :: _, [] => by simp [JVal.beqList]
  | x :: xs, y :: ys => by
    simp only [JVal.beqList, Bool.and_eq_true, JVal.beq_iff x y,
      JVal.beqList_iff xs ys, List.cons.injEq]

theorem JVal.beqMems_iff :
    (xs ys : List (List Char × JVal)) → (JVal.beqMems xs ys = true ↔ xs = ys)
  | [], [] => by simp [JVal.beqMems]
  | [], _ :: _ => by simp [JVal.beqMems]
  | _ :: _, [] => by simp [JVal.beqMems]
  | (k1, v1) :: xs, (k2, v2) :: ys => by
    simp only [JVal.beqMems, Bool.and_eq_true, beq_iff_eq, JVal.beq_iff v1 v2,
      JVal.beqMems_iff xs ys, List.cons.injEq, Prod.mk.injEq, and_assoc]

end

instance : DecidableEq JVal := fun a b =>
  decidable_of_iff (JVal.beq a b = true) (JVal.beq_iff a b)

instance : Inhabited JVal := ⟨JVal.null⟩

/-- Python `d[k] = v` on an insertion-ordered dict as an association list:
replace the value at the first occurrence of `k` (keeping its position),
or append `(k, v)` when `k` is absent. -/
def setKey {κ α : Type} [DecidableEq κ] : List (κ × α) → κ → α → List (κ × α)
  | [], k, v => [(k, v)]
  | (k', v') :: rest, k, v =>
    if k' = k then (k, v) :: rest else (k', v') :: setKey rest k v

/-- Python `d.get(k)` returning `None` when absent (first occurrence wins,
matching Python dicts, which hold each key once). -/
def getKey {κ α : Type} [DecidableEq κ] : List (κ × α) → κ → Option α
  | [], _ => none
  | (k', v') :: rest, k => if k' = k then some v' else getKey rest k

/-- Keys of an association list. -/
def keysOf {κ α : Type} : List (κ × α) → List κ := List.map Prod.fst

/-- Python truthiness on the JSON fragment (`None`, `False`, `0`, `""`,
`[]`, `{}` are falsy). -/
def pyTruthy : JVal → Bool
  | .null => false
  | .bool b => b
  | .num n => n != 0
  | .str s => s != []
  | .arr xs => xs != []
  | .obj ms => ms != []

/-- Lowercase hexadecimal digit, as `json.encoder` emits in `\u00xx`. -/
def hexDigit (n : Nat) : Char :=
  if n < 10 then Char.ofNat (48 + n) else Char.ofNat (87 + n)

/-- The escaping `json.dumps(..., ensure_ascii=False)` applies to one string
character: `"` and `\` and the C0 control characters are escaped (with the
short forms for backspace, form feed, newline, carriage return, tab), all
other characters pass through literally. -/
def escapeChar (c : Char) : List Char :=
  if c = '"' then ['\\', '"']
  else if c = '\\' then ['\\', '\\']
  else if c = '\n' then ['\\', 'n']
  else if c = '\t' then ['\\', 't']
  else if c = '\r' then ['\\', 'r']
  else if c = Char.ofNat 8 then ['\\', 'b']
  else if c = Char.ofNat 12 then ['\\', 'f']
  else if c.toNat < 32 then
    ['\\', 'u', '0', '0', hexDigit (c.toNat / 16), hexDigit (c.toNat % 16)]
  else [c]

/-- Body of a serialized JSON string (without the surrounding quotes). -/
def dumpStringBody : List Char → List Char
  | [] => []
  | c :: cs => escapeChar c ++ dumpStringBody cs

/-- A serialized JSON string, quotes included. -/
def dumpString (s : List Char) : List Char := '"' :: dumpStringBody s ++ ['"']

/-- Decimal digits of a natural number, most significant first (fuelled so
that it evaluates by kernel reduction; `natDigits` supplies enough fuel). -/
def natDigitsGo : Nat → Nat → List Char
  | 0, _ => []
  | fuel + 1, n =>
    if n < 10 then [Char.ofNat (48 + n)]
    else natDigitsGo fuel (n / 10) ++ [Char.ofNat (48 + n % 10)]

/-- Decimal representation of a natural number, as Python prints it. -/
def natDigits (n : Nat) : List Char := natDigitsGo (n + 1) n

/-- `json.dumps` of a Python `int`. -/
def intDump (i : Int) : List Char :=
  if i < 0 then '-' :: natDigits i.natAbs else natDigits i.natAbs

mutual

/-- `json.dumps(v, ensure_ascii=False)` with the default separators
`', '` and `': '`, restricted to the JSON fragment of the protocol. -/
def dump : JVal → List Char
  | .null => ['n', 'u', 'l', 'l']
  | .bool b => if b then ['t', 'r', 'u', 'e'] else ['f', 'a', 'l', 's', 'e']
  | .num i => intDump i
  | .str s => dumpString s
  | .arr xs => '[' :: dumpElemsFirst xs ++ [']']
  | .obj ms => '{' :: dumpMembersFirst ms ++ ['}']

def dumpElemsFirst : List JVal → List Char
  | [] => []
  | x :: xs => dump x ++ dumpElemsRest xs

def dumpElemsRest : List JVal → List Char
  | [] => []
  | x :: xs => ',' :: ' ' :: (dump x ++ dumpElemsRest xs)

def dumpMembersFirst : List (List Char × JVal) → List Char
  | [] => []
  | (k, v) :: ms => dumpString k ++ ':' :: ' ' :: (dump v ++ dumpMembersRest ms)

def dumpMembersRest : List (List Char × JVal) → List Char
  | [] => []
  | (k, v) :: ms => ',' :: ' ' :: (dumpString k ++ ':' :: ' ' :: (dump v ++ dumpMembersRest ms))

end

/-- JSON whitespace as `json.loads` skips it. -/
def isJsonWs (c : Char) : Bool := c = ' ' || c = '\t' || c = '\n' || c = '\r'

/-- Skip leading JSON whitespace. -/
def skipWs : List Char → List Char
  | [] => []
  | c :: rest => if isJsonWs c then skipWs rest else c :: rest

/-- Value of one hexadecimal digit (`json` accepts both cases). -/
def hexVal (c : Char) : Option Nat :=
  if 48 ≤ c.toNat ∧ c.toNat ≤ 57 then some (c.toNat - 48)
  else if 97 ≤ c.toNat ∧ c.toNat ≤ 102 then some (c.toNat - 87)
  else if 65 ≤ c.toNat ∧ c.toNat ≤ 70 then some (c.toNat - 55)
  else none

/-- Decimal digit test. -/
def isDigitCh (c : Char) : Bool := 48 ≤ c.toNat && c.toNat ≤ 57

/-- Prefix the decoded character onto a string-parser result. -/
def consRes (c : Char) : Option (List Char × List Char) → Option (List Char × List Char)
  | some (s, r) => some (c :: s, r)
  | none => none

/-- Parse the body of a JSON string after the opening quote, in strict mode:
stop at the closing quote, decode the escape sequences `\" \\ \/ \b \f \n
\r \t \uXXXX`, reject unescaped control characters and bad escapes.
(`\uXXXX` halves of surrogate pairs are outside the model; the serializer
modelled here never produces them.) -/
def parseStringBody : List Char → Option (List Char × List Char)
  | [] => none
  | c :: rest =>
    if c = '"' then some ([], rest)
    else if c = '\\' then
      match rest with
      | [] => none
      | e :: rest2 =>
        if e = '"' then consRes '"' (parseStringBody rest2)
        else if e = '\\' then consRes '\\' (parseStringBody rest2)
        else if e = '/' then consRes '/' (parseStringBody rest2)
        else if e = 'b' then consRes (Char.ofNat 8) (parseStringBody rest2)
        else if e = 'f' then consRes (Char.ofNat 12) (parseStringBody rest2)
        else if e = 'n' then consRes '\n' (parseStringBody rest2)
        else if e = 'r' then consRes '\r' (parseStringBody rest2)
        else if e = 't' then consRes '\t' (parseStringBody rest2)
        else if e = 'u' then
          match rest2 with
          | h1 :: h2 :: h3 :: h4 :: rest3 =>
            match hexVal h1, hexVal h2, hexVal h3, hexVal h4 with
            | some a, some b, some c3, some d =>
              let n := ((a * 16 + b) * 16 + c3) * 16 + d
              if 55296 ≤ n ∧ n < 57344 then none
              else consRes (Char.ofNat n) (parseStringBody rest3)
            | _, _, _, _ => none
          | _ => none
        else none
    else if c.toNat < 32 then none
    else consRes c (parseStringBody rest)

/-- Fold decimal digits into a natural number. -/
def foldDigits (ds : List Char) : Nat :=
  ds.foldl (fun a c => a * 10 + (c.toNat - 48)) 0

/-- Parse a JSON number. Integers only: a fractional part or an exponent
makes the result a Python `float`, which is outside this model, so it is
rejected here; leading zeros are rejected as in the `json` grammar. -/
def parseNumCore (neg : Bool) (cs1 : List Char) : Option (Int × List Char) :=
  let ds := cs1.takeWhile isDigitCh
  let rest := cs1.dropWhile isDigitCh
  if ds = [] then none
  else if ds.head? = some '0' ∧ ds.length > 1 then none
  else if rest.head? = some '.' ∨ rest.head? = some 'e' ∨ rest.head? = some 'E' then none
  else some (if neg then -(foldDigits ds : Int) else (foldDigits ds : Int), rest)

def parseNum (cs : List Char) : Option (Int × List Char) :=
  if cs.head? = some '-' then parseNumCore true cs.tail else parseNumCore false cs

/-- Python's dict construction while decoding an object: assign the pairs in
order into an initially empty dict (`d[k] = v`), so a repeated key keeps its
first position with its last value. -/
def dedupObj (ms : List (List Char × JVal)) : List (List Char × JVal) :=
  ms.foldl (fun acc kv => setKey acc kv.1 kv.2) []

mutual

/-- Parse one JSON value (with leading whitespace), returning it and the
unconsumed suffix. The fuel only bounds nesting-and-element recursion;
`loads` supplies enough for any input it is given. -/
def parseVal : Nat → List Char → Option (JVal × List Char)
  | 0, _ => none
  | fuel + 1, cs =>
    match skipWs cs with
    | [] => none
    | c :: rest =>
      if c = 'n' then
        match rest with
        | 'u' :: 'l' :: 'l' :: r => some (.null, r)
        | _ => none
      else if c = 't' then
        match rest with
        | 'r' :: 'u' :: 'e' :: r => some (.bool true, r)
        | _ => none
      else if c = 'f' then
        match rest with
        | 'a' :: 'l' :: 's' :: 'e' :: r => some (.bool false, r)
        | _ => none
      else if c = '"' then
        match parseStringBody rest with
        | some (s, r) => some (.str s, r)
        | none => none
      else if c = '[' then
        let t := skipWs rest
        if t.head? = some ']' then some (.arr [], t.tail)
        else
          match parseElems fuel t with
          | some (xs, r) => some (.arr xs, r)
          | none => none
      else if c = '{' then
        let t := skipWs rest
        if t.head? = some '}' then some (.obj [], t.tail)
        else
          match parseMembers fuel t with
          | some (ms, r) => some (.obj (dedupObj ms), r)
          | none => none
      else
        match parseNum (c :: rest) with
        | some (i, r) => some (.num i, r)
        | none => none

/-- Parse the elements of a non-empty JSON array up to and including the
closing bracket. -/
def parseElems : Nat → List Char → Option (List JVal × List Char)
  | 0, _ => none
  | fuel + 1, cs =>
    match parseVal fuel cs with
    | none => none
    | some (v, r1) =>
      let t := skipWs r1
      if t.head? = some ',' then
        match parseElems fuel t.tail with
        | some (xs, r) => some (v :: xs, r)
        | none => none
      else if t.head? = some ']' then some ([v], t.tail)
      else none

/-- Parse the members of a non-empty JSON object up to and including the
closing brace. -/
def parseMembers : Nat → List Char → Option (List (List Char × JVal) × List Char)
  | 0, _ => none
  | fuel + 1, cs =>
    match skipWs cs with
    | [] => none
    | c :: rest =>
      if c = '"' then
        match parseStringBody rest with
        | none => none
        | some (k, r1) =>
          let t := skipWs r1
          if t.head? = some ':' then
            match parseVal fuel t.tail with
            | none => none
            | some (v, r2) =>
              let u := skipWs r2
              if u.head? = some ',' then
                match parseMembers fuel u.tail with
                | some (ms, r) => some ((k, v) :: ms, r)
                | none => none
              else if u.head? = some '}' then some ([(k, v)], u.tail)
              else none
          else none
      else none

end

/-- `json.loads`: parse one JSON document and require only whitespace after
it (otherwise Python raises "Extra data"). -/
def loads (cs : List Char) : Option JVal :=
  match parseVal (2 * cs.length + 2) cs with
  | some (v, rest) => if skipWs rest = [] then some v else none
  | none => none

/-- Duplicate-key freedom for one association-list level. -/
def nodupKeys : List (List Char) → Bool
  | [] => true
  | k :: ks => !(ks.contains k) && nodupKeys ks

mutual

/-- Well-formedness of a decoded-or-encodable JSON value: every object level
holds each key at most once, as a Python dict does. -/
def wfj : JVal → Bool
  | .null => true
  | .bool _ => true
  | .num _ => true
  | .str _ => true
  | .arr xs => wfjList xs
  | .obj ms => nodupKeys (keysOf ms) && wfjMems ms

def wfjList : List JVal → Bool
  | [] => true
  | x :: xs => wfj x && wfjList xs

def wfjMems : List (List Char × JVal) → Bool
  | [] => true
  | (_, v) :: ms => wfj v && wfjMems ms

end

/-! ## The `SimpleMessage` wire format

`src/relay_server.py` lines 8-14 and `src/backups/ai_codebox_app.py`
lines 35-47. The shared constructor stamps `timestamp` with
`datetime.now().isoformat()`; the wall clock is passed in explicitly as
`now`. Field values are arbitrary JSON values, as in Python, where the
constructor and `from_dict` enforce no types beyond indexing `metadata`. -/

structure SimpleMessage where
  agent_id : JVal
  content : JVal
  direction : JVal
  timestamp : JVal
  msg_id : JVal
  metadata : JVal
deriving DecidableEq

/-- `SimpleMessage.__init__`: keep the given fields, stamp `timestamp` with
the current clock, replace a falsy `metadata` with `{}` and assign
`metadata['type'] = msg_type` (which raises, hence `none`, when `metadata`
is truthy but not a dict). -/
def SimpleMessage.init (agent_id content direction : JVal) (msg_type : JVal)
    (msg_id : JVal) (metadata : JVal) (now : List Char) : Option SimpleMessage :=
  let md := if pyTruthy metadata then metadata else .obj []
  match md with
  | .obj kvs =>
    some ⟨agent_id, content, direction, .str now, msg_id,
      .obj (setKey kvs "type".data msg_type)⟩
  | _ => none

/-- `self.__dict__` of a message, in attribute-insertion order. -/
def SimpleMessage.to_dict (m : SimpleMessage) : List (List Char × JVal) :=
  [("agent_id".data, m.agent_id), ("content".data, m.content),
   ("direction".data, m.direction), ("timestamp".data, m.timestamp),
   ("msg_id".data, m.msg_id), ("metadata".data, m.metadata)]

/-- `SimpleMessage.to_json`: `json.dumps(self.__dict__, ensure_ascii=False)`. -/
def SimpleMessage.to_json (m : SimpleMessage) : List Char :=
  dump (.obj m.to_dict)

/-- `SimpleMessage.from_dict` of `src/relay_server.py`: re-run the
constructor on the decoded fields. `data.get('metadata', {}).get(...)`
raises (hence `none`) when `metadata` is present but not a dict; the
constructor stamps a fresh `timestamp`. -/
def relay_from_dict (now : List Char) : JVal → Option SimpleMessage
  | .obj data =>
    let mtOpt : Option JVal :=
      match getKey data "metadata".data with
      | none => some (.str "chat".data)
      | some (.obj mdkvs) => some ((getKey mdkvs "type".data).getD (.str "chat".data))
      | some _ => none
    match mtOpt with
    | none => none
    | some mt =>
      SimpleMessage.init ((getKey data "agent_id".data).getD .null)
        ((getKey data "content".data).getD .null)
        ((getKey data "direction".data).getD .null) mt
        ((getKey data "msg_id".data).getD .null)
        ((getKey data "metadata".data).getD .null) now
  | _ => none

/-- `SimpleMessage.from_json` of `src/relay_server.py`:
`cls.from_dict(json.loads(json_str))`; any raised error is `none`. -/
def relay_from_json (now : List Char) (s : List Char) : Option SimpleMessage :=
  match loads s with
  | some j => relay_from_dict now j
  | none => none

/-- `SimpleMessage.from_json` of `src/backups/ai_codebox_app.py`: build an
instance from three fields, then `instance.__dict__.update(data)`, so every
key present in the decoded object wins over the constructor's value. -/
def backup_from_json (now : List Char) (s : List Char) : Option SimpleMessage :=
  match loads s with
  | some (.obj data) =>
    some { agent_id := (getKey data "agent_id".data).getD .null,
           content := (getKey data "content".data).getD .null,
           direction := (getKey data "direction".data).getD .null,
           timestamp := (getKey data "timestamp".data).getD (.str now),
           msg_id := (getKey data "msg_id".data).getD .null,
           metadata := (getKey data "metadata".data).getD
             (.obj [("type".data, .str "chat".data)]) }
  | some _ => none
  | none => none

/-- The messages the running system actually builds: well-formed JSON values
in every field, and a `metadata` dict that holds a `type` key, which the
constructor always installs. -/
def SimpleMessage.wf (m : SimpleMessage) : Bool :=
  wfj m.agent_id && wfj m.content && wfj m.direction && wfj m.timestamp &&
  wfj m.msg_id &&
  (match m.metadata with
   | .obj kvs => nodupKeys (keysOf kvs) && wfjMems kvs &&
       (getKey kvs "type".data).isSome
   | _ => false)

/-- Split a buffer at its first newline: `buffer.split('\n', 1)` when a
newline is present (`none` otherwise, which ends the inner framing loop). -/
def splitNl? : List Char → Option (List Char × List Char)
  | [] => none
  | c :: rest => if c = '\n' then some ([], rest) else consRes c (splitNl? rest)

/-- A concrete message of the shape the constructor builds, used to witness
the round-trip statements on explicit input. -/
def sampleMessage : SimpleMessage :=
  ⟨.str "A".data, .str "hi".data, .str "in".data, .str "T0".data, .null,
    .obj [("type".data, .str "chat".data)]⟩

/-! ## The `TOOL_ACTION` parser

`src/emergency_agent/app.py` lines 622-646:
`TOOL_ACTION_PATTERN = re.compile(r'TOOL_ACTION\((.*?)\)')` searched on
`line.strip()`, then `re.findall(r'"((?:[^"\\]|\\.)*)"', args_str)`, then a
chain of `str.replace` calls decodes escapes in each argument after the
first. -/

/-- ASCII whitespace stripped by `str.strip()` (the inputs here are ASCII;
the non-ASCII Unicode spaces Python also strips never occur). -/
def isPySpace (c : Char) : Bool :=
  c = ' ' || c = '\t' || c = '\n' || c = '\r' || c = Char.ofNat 11 || c = Char.ofNat 12

/-- `line.strip()`. -/
def pyStrip (s : List Char) : List Char :=
  ((s.dropWhile isPySpace).reverse.dropWhile isPySpace).reverse

/-- The literal head of the tool-action pattern. -/
def TOOL_ACTION_lit : List Char := "TOOL_ACTION(".data

/-- The lazy group `(.*?)\)`: the shortest run of non-newline characters up
to a closing parenthesis; `none` when no `)` occurs before a newline or the
end (then the regex engine abandons this start position). -/
def findCloseParen : List Char → Option (List Char)
  | [] => none
  | c :: rest =>
    if c = ')' then some []
    else if c = '\n' then none
    else
      match findCloseParen rest with
      | some span => some (c :: span)
      | none => none

/-- `TOOL_ACTION_PATTERN.search(s)`: try every start position left to
right; at the first position where the literal matches and a `)` follows on
the same line, capture the lazy group. -/
def toolActionSearch : List Char → Option (List Char)
  | [] => none
  | c :: rest =>
    if TOOL_ACTION_lit.isPrefixOf (c :: rest) then
      match findCloseParen (List.drop 12 (c :: rest)) with
      | some span => some span
      | none => toolActionSearch rest
    else toolActionSearch rest

/-- One attempted match of `"((?:[^"\\]|\\.)*)"` after an opening quote:
capture raw characters (escape pairs kept verbatim) until the closing
quote. A backslash before a newline or at the end, or a missing closing
quote, fails the attempt. -/
def scanQuoted : List Char → Option (List Char × List Char)
  | [] => none
  | '"' :: rest => some ([], rest)
  | '\\' :: [] => none
  | '\\' :: e :: rest =>
    if e = '\n' then none
    else
      match scanQuoted rest with
      | some (s, r) => some ('\\' :: e :: s, r)
      | none => none
  | c :: rest =>
    match scanQuoted rest with
    | some (s, r) => some (c :: s, r)
    | none => none

/-- `re.findall` of the quoted-argument regex: scan left to right; a match
must start at a `"`; on success continue after the match, on failure slide
one position. Fuelled by the input length, which the wrapper supplies. -/
def findAllQuotedGo : Nat → List Char → List (List Char)
  | 0, _ => []
  | _ + 1, [] => []
  | fuel + 1, c :: rest =>
    if c = '"' then
      match scanQuoted rest with
      | some (content, r) => content :: findAllQuotedGo fuel r
      | none => findAllQuotedGo fuel rest
    else findAllQuotedGo fuel rest

/-- All quoted-argument matches in a span. -/
def findAllQuoted (s : List Char) : List (List Char) :=
  findAllQuotedGo s.length s

/-- Python `s.replace(old, new)` with non-empty `old`: scan left to right,
non-overlapping. Fuelled by the input length, which the wrapper supplies. -/
def pyReplaceGo (old new : List Char) : Nat → List Char → List Char
  | 0, s => s
  | _ + 1, [] => []
  | fuel + 1, c :: rest =>
    if old.isPrefixOf (c :: rest) ∧ old ≠ [] then
      new ++ pyReplaceGo old new fuel (List.drop old.length (c :: rest))
    else c :: pyReplaceGo old new fuel rest

/-- Python `s.replace(old, new)`. -/
def pyReplace (s old new : List Char) : List Char :=
  pyReplaceGo old new s.length s

/-- The escape decoding applied to each argument after the first:
`arg.replace('\\n', '\n').replace('\\t', '\t').replace('\\"', '"')
.replace('\\\\', '\\')`, in that order. -/
def decodeArg (arg : List Char) : List Char :=
  pyReplace (pyReplace (pyReplace (pyReplace arg ['\\', 'n'] ['\n'])
    ['\\', 't'] ['\t']) ['\\', '"'] ['"']) ['\\', '\\'] ['\\']

/-- `parse_tool_action(line)`: regex search on the stripped line, quoted
substrings of the captured span, first one the tool name, the rest the
escape-decoded arguments; `(None, None)` when the pattern or the argument
list is missing. -/
def parse_tool_action (line : List Char) :
    Option (List Char) × Option (List (List Char)) :=
  match toolActionSearch (pyStrip line) with
  | none => (none, none)
  | some span =>
    match findAllQuoted span with
    | [] => (none, none)
    | name :: args => (some name, some (args.map decodeArg))

/-- Index-based restatement of what the lazy regex captures (used to settle
the claim about which span is captured): the first index where the literal
`TOOL_ACTION(` matches, and from there everything before the first `)`. -/
def litAt (s : List Char) (i : Nat) : Bool :=
  TOOL_ACTION_lit.isPrefixOf (s.drop i)

/-- Specification-style description of the captured span: take the first
occurrence of `TOOL_ACTION(`, then the characters after it up to (not
including) the first following `)`, provided one exists. -/
def specSpan (s : List Char) : Option (List Char) :=
  match (List.range s.length).find? (litAt s) with
  | none => none
  | some i =>
    let after := s.drop (i + 12)
    if after.contains ')' then some (after.takeWhile (fun c => c ≠ ')')) else none

/-! ## The dispatcher

`src/emergency_agent/app.py`, `process_ai_response_with_complete_feedback`
(lines 649-713): emit one text message, then for each line of the model
output parse a tool action and, when the name is truthy and registered,
execute it, feed `TOOL_RESULT(...)` back to the chat (a non-blank reply is
emitted as a follow-up), and emit a `tool_output` and a `tool_result`
entry. The tool body and the chat are modelled as function parameters
(`exec` returns the output text and success flag; `chatReply` returns the
reply text, `none` standing for a raised send error). Wall-clock execution
time is not modelled. -/

/-- Messages emitted to the frontend, in order. -/
inductive Emitted where
  | textMsg : List Char → Emitted
  | aiFollowup : List Char → Emitted
  | toolOutput : List Char → List Char → Bool → Emitted
  | toolResultMsg : List Char → List Char → Bool → Emitted
deriving DecidableEq

/-- The static tool registry's keys (`TOOL_REGISTRY`, line 506). -/
def TOOL_REGISTRY_keys : List (List Char) :=
  ["READ_FILE".data, "LIST_DIR".data, "WRITE_CODE".data, "LOG_ACTIVITY".data,
   "EXECUTE_COMMAND".data, "CREATE_DIRECTORY".data, "ANALYZE_PROJECT".data,
   "BACKUP_PROJECT".data]

/-- The `TOOL_RESULT("name", """output""")` string fed back to the chat. -/
def TOOL_RESULT_string (name out : List Char) : List Char :=
  "TOOL_RESULT(\"".data ++ name ++ "\", \"\"\"".data ++ out ++ "\"\"\")".data

/-- `gemini_output.split('\n')` (empty pieces kept, as in Python). -/
def pySplitNl : List Char → List (List Char)
  | [] => [[]]
  | c :: rest =>
    if c = '\n' then [] :: pySplitNl rest
    else
      match pySplitNl rest with
      | h :: t => (c :: h) :: t
      | [] => [[c]]

/-- Processing of one line of model output: the invocations performed (tool
name with arguments, in order) and the messages emitted for that line. -/
def dispatchLine (registry : List (List Char))
    (exec : List Char → List (List Char) → List Char × Bool)
    (chatReply : List Char → Option (List Char)) (line : List Char) :
    List (List Char × List (List Char)) × List Emitted :=
  match parse_tool_action line with
  | (some name, some args) =>
    if name ≠ [] ∧ registry.contains name then
      let r := exec name args
      let fb : List Emitted :=
        match chatReply (TOOL_RESULT_string name r.1) with
        | some reply => if pyStrip reply ≠ [] then [.aiFollowup reply] else []
        | none => []
      ([(name, args)],
        fb ++ [.toolOutput name r.1 r.2, .toolResultMsg name r.1 r.2])
    else ([], [])
  | _ => ([], [])

/-- `process_ai_response_with_complete_feedback`: the indicator-prefixed
text echo first, then the per-line results in order. -/
def process_ai_response (registry : List (List Char))
    (exec : List Char → List (List Char) → List Char × Bool)
    (chatReply : List Char → Option (List Char))
    (modeInd pathInd output : List Char) :
    List (List Char × List (List Char)) × List Emitted :=
  let perLine := (pySplitNl output).map (dispatchLine registry exec chatReply)
  ((perLine.map Prod.fst).flatten,
   .textMsg (modeInd ++ pathInd ++ output) :: (perLine.map Prod.snd).flatten)

/-! ## The Bridge accept loop (`RelayBridge._accept_connections`)

`src/relay_server.py` lines 22-29: on each accepted socket, close the
previously held client socket (if any) and install the new one as the
canonical client; `send_to_gui` writes only to the canonical client. -/

structure BridgeState where
  clientSocket : Option Nat
  connected : Bool
  closedSockets : List Nat
deriving DecidableEq

/-- The Bridge before any client has connected. -/
def initBridge : BridgeState := ⟨none, false, []⟩

/-- One iteration of the accept loop body for an accepted socket. -/
def acceptConnection (st : BridgeState) (sock : Nat) : BridgeState :=
  { clientSocket := some sock,
    connected := true,
    closedSockets :=
      match st.clientSocket with
      | some old => old :: st.closedSockets
      | none => st.closedSockets }

/-- The accept loop over a sequence of incoming connections. -/
def acceptAll (st : BridgeState) (socks : List Nat) : BridgeState :=
  socks.foldl acceptConnection st

/-- The socket `send_to_gui` writes to (none while disconnected). -/
def sendTarget (st : BridgeState) : Option Nat :=
  if st.connected then st.clientSocket else none

/-! ## The Relay Manager (`RelayManager._launch_agent` and `stop`)

`src/relay_server.py` lines 58-89 and 120-128. A subprocess handle is its
OS pid together with its liveness as `poll()` reports it; the filesystem
check on the agent script and the success of `subprocess.Popen` are
environment parameters. -/

structure AgentProc where
  pid : Nat
  alive : Bool
deriving DecidableEq

structure LaunchEnv where
  scriptExists : Bool
  popenOk : Bool
deriving DecidableEq

/-- The script every agent process runs. -/
def agentScript : List Char := "cdp_agent.py".data

/-- `_launch_agent`: no-op when the id maps to a live process; otherwise
spawn (unless the script is missing or `Popen` raises) and record the
handle under the id. Returns the new registry and the spawned processes as
`(pid, script, url)` triples. -/
def launch_agent (env : LaunchEnv) (newPid : Nat)
    (registry : List (List Char × AgentProc)) (agent_id url : List Char) :
    List (List Char × AgentProc) × List (Nat × List Char × List Char) :=
  let spawnPath : List (List Char × AgentProc) × List (Nat × List Char × List Char) :=
    if env.scriptExists = false then (registry, [])
    else if env.popenOk = false then (registry, [])
    else (setKey registry agent_id ⟨newPid, true⟩, [(newPid, agentScript, url)])
  match getKey registry agent_id with
  | some p => if p.alive then (registry, []) else spawnPath
  | none => spawnPath

/-- `RelayManager.stop`'s pass over the registry: `terminate()` is invoked
once for each recorded process whose `poll()` is `None` (still running),
in registry order. Returns the pids terminated. -/
def stopTerminations (registry : List (List Char × AgentProc)) : List Nat :=
  registry.filterMap (fun kv => if kv.2.alive then some kv.2.pid else none)

/-! ## The Bridge client read loop (`RelayBridge._listen_client`)

`src/relay_server.py` lines 30-40: chunks arrive from `recv`; an empty
read breaks the loop; complete lines are parsed with
`SimpleMessage.from_json` once per registered callback (so nothing is
parsed when no callback is registered); a raised parse error breaks the
loop; after the loop the bridge marks itself disconnected and fires the
disconnect callbacks. Exhausting the chunk list models the loop still
blocked in `recv`. -/

inductive ListenEnd where
  | closedConn : ListenEnd
  | errorStop : ListenEnd
  | stillOpen : ListenEnd
deriving DecidableEq

/-- Whether the post-loop disconnect code has run. -/
def disconnectFired : ListenEnd → Bool
  | .stillOpen => false
  | _ => true

/-- The inner `while '\n' in buffer` framing loop: split off complete
lines; a non-blank line is parsed (when at least one callback exists) and
either delivered to every callback or, on a parse error, the loop breaks
(`none` remaining buffer). Fuelled by the buffer length. -/
def drainBuffer (ncb : Nat) (now : List Char) :
    Nat → List Char → Option (List Char) × List SimpleMessage
  | 0, buf => (some buf, [])
  | fuel + 1, buf =>
    match splitNl? buf with
    | none => (some buf, [])
    | some (line, rest) =>
      if pyStrip line ≠ [] ∧ 0 < ncb then
        match relay_from_json now line with
        | none => (none, [])
        | some m =>
          let r := drainBuffer ncb now fuel rest
          (r.1, m :: r.2)
      else drainBuffer ncb now fuel rest

/-- The outer read loop over received chunks. -/
def relayListenGo (ncb : Nat) (now : List Char) :
    List (List Char) → List Char → List SimpleMessage × ListenEnd
  | [], _ => ([], .stillOpen)
  | chunk :: restChunks, buf =>
    if chunk = [] then ([], .closedConn)
    else
      match drainBuffer ncb now (buf ++ chunk).length (buf ++ chunk) with
      | (none, ms) => (ms, .errorStop)
      | (some buf2, ms) =>
        let r := relayListenGo ncb now restChunks buf2
        (ms ++ r.1, r.2)

/-- `_listen_client` from a fresh buffer: the messages delivered (each to
all `ncb` callbacks) and how the loop ended. -/
def relayListen (ncb : Nat) (now : List Char) (chunks : List (List Char)) :
    List SimpleMessage × ListenEnd :=
  relayListenGo ncb now chunks []

/-! ## The GUI-side client read loop (`BridgeClient._listen_for_messages`)

`src/backups/ai_codebox_app.py` lines 64-88: same framing, but each
callback invocation is wrapped in `try/except: pass`, so a parse error is
swallowed and the loop continues; delivery happens only when the Tk root
reference has been set. After the loop (any read error or empty read) the
client marks itself disconnected and hands one synthesized "manager
offline" status message to `self.callbacks[0]` only, again only when
callbacks exist and the root reference is set. -/

/-- The inner framing loop of the GUI client. Fuelled by buffer length. -/
def clientDrain (ncb : Nat) (rootRef : Bool) (now : List Char) :
    Nat → List Char → List Char × List SimpleMessage
  | 0, buf => (buf, [])
  | fuel + 1, buf =>
    match splitNl? buf with
    | none => (buf, [])
    | some (line, rest) =>
      let delivered : List SimpleMessage :=
        if pyStrip line ≠ [] ∧ rootRef ∧ 0 < ncb then
          match backup_from_json now line with
          | some m => [m]
          | none => []
        else []
      let r := clientDrain ncb rootRef now fuel rest
      (r.1, delivered ++ r.2)

/-- The outer chunk loop of the GUI client read loop. -/
def clientListenGo (ncb : Nat) (rootRef : Bool) (now : List Char) :
    List (List Char) → List Char → List SimpleMessage
  | [], _ => []
  | chunk :: rest, buf =>
    if chunk = [] then []
    else
      let r := clientDrain ncb rootRef now (buf ++ chunk).length (buf ++ chunk)
      r.2 ++ clientListenGo ncb rootRef now rest r.1

/-- The synthesized final status message
`SimpleMessage('System', {'manager': ('Offline', 'red')}, 'incoming',
msg_type='status_update')`. -/
def offlineMessage (now : List Char) : Option SimpleMessage :=
  SimpleMessage.init (.str "System".data)
    (.obj [("manager".data, .arr [.str "Offline".data, .str "red".data])])
    (.str "incoming".data) (.str "status_update".data) .null .null now

/-- Who is notified after the read loop ends: callback 0 alone, and only
when a callback and the root reference exist. -/
def offlineNotices (ncb : Nat) (rootRef : Bool) (now : List Char) :
    List (Nat × Option SimpleMessage) :=
  if 0 < ncb ∧ rootRef then [(0, offlineMessage now)] else []

/-- `_listen_for_messages` from a fresh buffer: the chat messages delivered
while reading, and the offline notifications sent after the loop ends
(the chunk list ending models the read error or empty read). -/
def clientListen (ncb : Nat) (rootRef : Bool) (now : List Char)
    (chunks : List (List Char)) :
    List SimpleMessage × List (Nat × Option SimpleMessage) :=
  (clientListenGo ncb rootRef now chunks [], offlineNotices ncb rootRef now)

/-! ## Sizes used to discharge the parser fuel -/

mutual

/-- Fuel bound sufficient to parse the serialization of a value. -/
def jsize : JVal → Nat
  | .null => 1
  | .bool _ => 1
  | .num _ => 1
  | .str _ => 1
  | .arr xs => 2 + jsizeList xs
  | .obj ms => 2 + jsizeMems ms

def jsizeList : List JVal → Nat
  | [] => 0
  | x :: xs => 1 + jsize x + jsizeList xs

def jsizeMems : List (List Char × JVal) → Nat
  | [] => 0
  | (_, v) :: ms => 1 + jsize v + jsizeMems ms

end

/-- Characters that may legitimately follow a serialized value. -/
def restOk : List Char → Bool
  | [] => true
  | c :: _ => c = ',' || c = ']' || c = '}'

/-! ## Helper lemmas: whitespace, digits, numbers -/

theorem skipWs_cons_of_not_ws {c : Char} (h : isJsonWs c = false) (t : List Char) :
    skipWs (c :: t) = c :: t := by
  simp [skipWs, h]

theorem skipWs_append_of_ws {sp : List Char} (h : ∀ c ∈ sp, isJsonWs c = true)
    (t : List Char) : skipWs (sp ++ t) = skipWs t := by
  induction sp with
  | nil => rfl
  | cons c cs ih =>
    have hc := h c (by simp)
    simp only [List.cons_append, skipWs, hc, if_true]
    exact ih (fun d hd => h d (by simp [hd]))

theorem char_ne_of_toNat_ne {c d : Char} (h : c.toNat ≠ d.toNat) : c ≠ d :=
  fun he => h (he ▸ rfl)

theorem toNat_ofNat_small {k : Nat} (h : k < 55296) : (Char.ofNat k).toNat = k := by
  have hv : k.isValidChar := Or.inl (by omega)
  rw [Char.toNat, Char.ofNat, dif_pos hv]
  unfold Char.ofNatAux
  simp [Nat.toUInt32, UInt32.ofNat, UInt32.toNat]

theorem natDigitsGo_digits :
    ∀ n fuel, n < fuel → ∀ c ∈ natDigitsGo fuel n, isDigitCh c = true := by
  intro n
  induction n using Nat.strong_induction_on with
  | _ n ih =>
    intro fuel hf c hc
    match fuel with
    | f + 1 =>
      by_cases h10 : n < 10
      · simp only [natDigitsGo, if_pos h10, List.mem_singleton] at hc
        subst hc
        simp [isDigitCh, toNat_ofNat_small (show 48 + n < 55296 by omega)]
        omega
      · simp only [natDigitsGo, if_neg h10, List.mem_append, List.mem_singleton] at hc
        rcases hc with hc | hc
        · have hlt : n / 10 < n := Nat.div_lt_self (by omega) (by omega)
          exact ih (n / 10) hlt f (by omega) c hc
        · subst hc
          have hm : n % 10 < 10 := Nat.mod_lt _ (by omega)
          simp [isDigitCh, toNat_ofNat_small (show 48 + n % 10 < 55296 by omega)]
          omega

theorem natDigitsGo_shape :
    ∀ n fuel, n < fuel → ∃ c t, natDigitsGo fuel n = c :: t ∧ isDigitCh c = true ∧
      (0 < n → c ≠ '0') := by
  intro n
  induction n using Nat.strong_induction_on with
  | _ n ih =>
    intro fuel hf
    match fuel with
    | f + 1 =>
      by_cases h10 : n < 10
      · refine ⟨Char.ofNat (48 + n), [], by simp [natDigitsGo, if_pos h10], ?_, ?_⟩
        · simp [isDigitCh, toNat_ofNat_small (show 48 + n < 55296 by omega)]
          omega
        · intro hn
          apply char_ne_of_toNat_ne
          rw [toNat_ofNat_small (by omega), (by decide : ('0' : Char).toNat = 48)]
          omega
      · have hlt : n / 10 < n := Nat.div_lt_self (by omega) (by omega)
        obtain ⟨c, t, he, hd, hz⟩ := ih (n / 10) hlt f (by omega)
        refine ⟨c, t ++ [Char.ofNat (48 + n % 10)], ?_, hd, ?_⟩
        · simp [natDigitsGo, if_neg h10, he]
        · intro _
          exact hz (Nat.div_pos (by omega) (by omega))

theorem natDigitsGo_fold :
    ∀ n fuel, n < fuel → ∃ L : Nat, ∀ acc : Nat,
      (natDigitsGo fuel n).foldl (fun a c => a * 10 + (c.toNat - 48)) acc =
        acc * 10 ^ L + n := by
  intro n
  induction n using Nat.strong_induction_on with
  | _ n ih =>
    intro fuel hf
    match fuel with
    | f + 1 =>
      by_cases h10 : n < 10
      · refine ⟨1, fun acc => ?_⟩
        simp [natDigitsGo, if_pos h10, toNat_ofNat_small (show 48 + n < 55296 by omega)]
      · have hlt : n / 10 < n := Nat.div_lt_self (by omega) (by omega)
        obtain ⟨L, hL⟩ := ih (n / 10) hlt f (by omega)
        refine ⟨L + 1, fun acc => ?_⟩
        simp only [natDigitsGo, if_neg h10, List.foldl_append, hL acc, List.foldl_cons,
          List.foldl_nil, toNat_ofNat_small (show 48 + n % 10 < 55296 by omega)]
        have hmod : 48 + n % 10 - 48 = n % 10 := by omega
        rw [hmod, pow_succ]
        have hdm := Nat.div_add_mod n 10
        ring_nf
        omega

/-- Decimal digits of `n` as `natDigits` produces them. -/
theorem natDigits_digits {n : Nat} : ∀ c ∈ natDigits n, isDigitCh c = true :=
  natDigitsGo_digits n (n + 1) (Nat.lt_succ_self n)

theorem natDigits_shape (n : Nat) :
    ∃ c t, natDigits n = c :: t ∧ isDigitCh c = true ∧ (0 < n → c ≠ '0') :=
  natDigitsGo_shape n (n + 1) (Nat.lt_succ_self n)

theorem foldDigits_natDigits (n : Nat) : foldDigits (natDigits n) = n := by
  obtain ⟨L, hL⟩ := natDigitsGo_fold n (n + 1) (Nat.lt_succ_self n)
  simpa [foldDigits, natDigits] using hL 0

theorem takeWhile_append_of {p : Char → Bool} :
    ∀ l rest : List Char, (∀ c ∈ l, p c = true) →
      (∀ c, rest.head? = some c → p c = false) →
      (l ++ rest).takeWhile p = l ∧ (l ++ rest).dropWhile p = rest := by
  intro l
  induction l with
  | nil =>
    intro rest _ hr
    match rest with
    | [] => simp
    | c :: t =>
      have := hr c rfl
      simp [List.takeWhile, List.dropWhile, this]
  | cons c l ih =>
    intro rest hl hr
    have hc := hl c (by simp)
    have hrec := ih rest (fun d hd => hl d (by simp [hd])) hr
    simp [List.takeWhile, List.dropWhile, hc, hrec.1, hrec.2]

/-- Digits are not minus signs, dots or exponent markers. -/
theorem digit_facts {c : Char} (h : isDigitCh c = true) :
    c ≠ '-' ∧ c ≠ '.' ∧ c ≠ 'e' ∧ c ≠ 'E' ∧ c ≠ ',' ∧ c ≠ ']' ∧ c ≠ '}' ∧
      isJsonWs c = false ∧ c ≠ 'n' ∧ c ≠ 't' ∧ c ≠ 'f' ∧ c ≠ '"' ∧ c ≠ '[' ∧ c ≠ '{' := by
  simp only [isDigitCh, Bool.and_eq_true, decide_eq_true_eq] at h
  obtain ⟨h1, h2⟩ := h
  have ne : ∀ d : Char, (d.toNat < 48 ∨ 57 < d.toNat) → c ≠ d := by
    intro d hd he
    subst he
    omega
  refine ⟨ne _ (by decide), ne _ (by decide), ne _ (by decide), ne _ (by decide),
    ne _ (by decide), ne _ (by decide), ne _ (by decide), ?_,
    ne _ (by decide), ne _ (by decide), ne _ (by decide), ne _ (by decide),
    ne _ (by decide), ne _ (by decide)⟩
  simp only [isJsonWs, Bool.or_eq_false_iff, decide_eq_false_iff_not]
  exact ⟨⟨⟨ne ' ' (by decide), ne '\t' (by decide)⟩, ne '\n' (by decide)⟩,
    ne '\r' (by decide)⟩

/-- What may follow a serialized value never starts a digit run, a
fractional part, or an exponent. -/
theorem restOk_head {rest : List Char} (h : restOk rest = true) :
    ∀ c, rest.head? = some c →
      isDigitCh c = false ∧ c ≠ '.' ∧ c ≠ 'e' ∧ c ≠ 'E' := by
  intro c hc
  match rest with
  | [] => simp at hc
  | d :: t =>
    have hdc : d = c := by simpa using hc
    subst hdc
    simp only [restOk, Bool.or_eq_true, decide_eq_true_eq] at h
    rcases h with (h | h) | h <;> subst h <;>
      exact ⟨by decide, by decide, by decide, by decide⟩

/-- Round trip for a serialized digit run, for either sign flag. -/
theorem parseNumCore_natDigits (neg : Bool) (n : Nat) (rest : List Char)
    (hr : restOk rest = true) :
    parseNumCore neg (natDigits n ++ rest) =
      some (if neg then -(n : Int) else (n : Int), rest) := by
  have hrest := restOk_head hr
  obtain ⟨c, t, he, hd, hz⟩ := natDigits_shape n
  have htk := takeWhile_append_of (natDigits n) rest natDigits_digits
    (fun d hd2 => (hrest d hd2).1)
  simp only [parseNumCore, htk.1, htk.2]
  rw [if_neg (by rw [he]; simp), if_neg ?hz0, if_neg ?hdot, foldDigits_natDigits]
  case hz0 =>
    rintro ⟨h0, hlen⟩
    by_cases hn0 : n = 0
    · rw [hn0] at hlen
      simp [natDigits, natDigitsGo] at hlen
    · rw [he] at h0
      simp only [List.head?_cons, Option.some.injEq] at h0
      exact hz (by omega) h0
  case hdot =>
    rintro (h | h | h) <;>
      { obtain ⟨-, h2, h3, h4⟩ := hrest _ h
        first | exact h2 rfl | exact h3 rfl | exact h4 rfl }

/-- Round trip for serialized integers. -/
theorem parseNum_intDump (i : Int) (rest : List Char) (hr : restOk rest = true) :
    parseNum (intDump i ++ rest) = some (i, rest) := by
  by_cases hneg : i < 0
  · rw [intDump, if_pos hneg]
    have hstep : parseNum ('-' :: natDigits i.natAbs ++ rest) =
        parseNumCore true (natDigits i.natAbs ++ rest) := by
      simp [parseNum]
    rw [List.cons_append] at hstep
    rw [List.cons_append, hstep, parseNumCore_natDigits true i.natAbs rest hr,
      if_pos rfl]
    have hv : -((i.natAbs : Nat) : Int) = i := by omega
    rw [hv]
  · rw [intDump, if_neg hneg]
    obtain ⟨c, t, he, hd, hz⟩ := natDigits_shape i.natAbs
    have hcne : c ≠ '-' := (digit_facts hd).1
    have hne : (natDigits i.natAbs ++ rest).head? ≠ some '-' := by
      rw [he]
      simp only [List.cons_append, List.head?_cons, ne_eq, Option.some.injEq]
      exact hcne
    rw [parseNum, if_neg hne, parseNumCore_natDigits false i.natAbs rest hr,
      if_neg (by simp)]
    have hv : ((i.natAbs : Nat) : Int) = i := by omega
    rw [hv]

/-! ## Helper lemmas: string bodies -/

theorem hexVal_hexDigit : ∀ d : Nat, d < 16 → hexVal (hexDigit d) = some d := by
  decide

/-- Decoding one `\u00xx` escape as the serializer emits it. -/
theorem parseStringBody_u (a b : Nat) (ha : a < 2) (hb : b < 16) (rest : List Char) :
    parseStringBody ('\\' :: 'u' :: '0' :: '0' :: hexDigit a :: hexDigit b :: rest) =
      consRes (Char.ofNat (a * 16 + b)) (parseStringBody rest) := by
  rw [parseStringBody.eq_def]
  simp [hexVal_hexDigit a (by omega), hexVal_hexDigit b hb,
    (by decide : hexVal '0' = some 0)]
  intro h1 h2
  exact absurd h1 (by omega)

/-- Round trip for one serialized string body. -/
theorem parseStringBody_dump :
    ∀ s t : List Char, parseStringBody (dumpStringBody s ++ '"' :: t) = some (s, t) := by
  intro s
  induction s with
  | nil =>
    intro t
    rw [(by simp [dumpStringBody] : dumpStringBody [] ++ '"' :: t = '"' :: t)]
    rw [parseStringBody.eq_def]
    simp
  | cons c cs ih =>
    intro t
    have hstep : dumpStringBody (c :: cs) ++ '"' :: t =
        escapeChar c ++ (dumpStringBody cs ++ '"' :: t) := by
      simp [dumpStringBody]
    rw [hstep]
    by_cases h1 : c = '"'
    · subst h1
      rw [(by decide : escapeChar '"' = ['\\', '"'])]
      rw [List.cons_append, List.cons_append, List.nil_append]
      rw [parseStringBody.eq_def]
      simp [ih, consRes]
    · by_cases h2 : c = '\\'
      · subst h2
        rw [(by decide : escapeChar '\\' = ['\\', '\\'])]
        rw [List.cons_append, List.cons_append, List.nil_append]
        rw [parseStringBody.eq_def]
        simp [ih, consRes]
      · by_cases h3 : c = '\n'
        · subst h3
          rw [(by decide : escapeChar '\n' = ['\\', 'n'])]
          rw [List.cons_append, List.cons_append, List.nil_append]
          rw [parseStringBody.eq_def]
          simp [ih, consRes]
        · by_cases h4 : c = '\t'
          · subst h4
            rw [(by decide : escapeChar '\t' = ['\\', 't'])]
            rw [List.cons_append, List.cons_append, List.nil_append]
            rw [parseStringBody.eq_def]
            simp [ih, consRes]
          · by_cases h5 : c = '\r'
            · subst h5
              rw [(by decide : escapeChar '\r' = ['\\', 'r'])]
              rw [List.cons_append, List.cons_append, List.nil_append]
              rw [parseStringBody.eq_def]
              simp [ih, consRes]
            · by_cases h6 : c = Char.ofNat 8
              · subst h6
                rw [(by decide : escapeChar (Char.ofNat 8) = ['\\', 'b'])]
                rw [List.cons_append, List.cons_append, List.nil_append]
                rw [parseStringBody.eq_def]
                simp [ih, consRes]
              · by_cases h7 : c = Char.ofNat 12
                · subst h7
                  rw [(by decide : escapeChar (Char.ofNat 12) = ['\\', 'f'])]
                  rw [List.cons_append, List.cons_append, List.nil_append]
                  rw [parseStringBody.eq_def]
                  simp [ih, consRes]
                · by_cases h8 : c.toNat < 32
                  · have hesc : escapeChar c =
                        ['\\', 'u', '0', '0', hexDigit (c.toNat / 16), hexDigit (c.toNat % 16)] := by
                      simp only [escapeChar, if_neg h1, if_neg h2, if_neg h3, if_neg h4,
                        if_neg h5, if_neg h6, if_neg h7, if_pos h8]
                    rw [hesc]
                    simp only [List.cons_append, List.nil_append]
                    rw [parseStringBody_u (c.toNat / 16) (c.toNat % 16) (by omega) (by omega)]
                    rw [(by omega : c.toNat / 16 * 16 + c.toNat % 16 = c.toNat),
                      Char.ofNat_toNat, ih, consRes]
                  · have hesc : escapeChar c = [c] := by
                      simp only [escapeChar, if_neg h1, if_neg h2, if_neg h3, if_neg h4,
                        if_neg h5, if_neg h6, if_neg h7, if_neg h8]
                    rw [hesc]
                    simp only [List.cons_append, List.nil_append]
                    rw [parseStringBody.eq_def]
                    simp only []
                    rw [if_neg h1, if_neg h2, if_neg h8, ih, consRes]

/-! ## Helper lemmas: sizes, dump head shapes, dict operations -/

theorem jsize_pos : ∀ v : JVal, 1 ≤ jsize v := by
  intro v
  cases v <;> simp [jsize] <;> omega

theorem jsizeList_cons (x : JVal) (xs : List JVal) :
    jsizeList (x :: xs) = 1 + jsize x + jsizeList xs := rfl

theorem jsizeMems_cons (k : List Char) (v : JVal) (ms : List (List Char × JVal)) :
    jsizeMems ((k, v) :: ms) = 1 + jsize v + jsizeMems ms := rfl

/-- Every serialization is non-empty and starts with a character that is
not whitespace and not a closing bracket. -/
theorem dump_shape (v : JVal) :
    ∃ c t, dump v = c :: t ∧ isJsonWs c = false ∧ c ≠ ']' ∧ c ≠ '}' := by
  cases v with
  | null => exact ⟨'n', "ull".data, rfl, by decide, by decide, by decide⟩
  | bool b =>
    cases b with
    | true => exact ⟨'t', "rue".data, rfl, by decide, by decide, by decide⟩
    | false => exact ⟨'f', "alse".data, rfl, by decide, by decide, by decide⟩
  | num i =>
    by_cases hneg : i < 0
    · exact ⟨'-', _, by rw [show dump (.num i) = intDump i from rfl, intDump, if_pos hneg],
        by decide, by decide, by decide⟩
    · obtain ⟨c, t, he, hd, -⟩ := natDigits_shape i.natAbs
      obtain ⟨-, -, -, -, -, h5, h6, h7, -⟩ := digit_facts hd
      exact ⟨c, t, by rw [show dump (.num i) = intDump i from rfl, intDump, if_neg hneg, he],
        h7, h5, h6⟩
  | str s => exact ⟨'"', dumpStringBody s ++ ['"'], rfl, by decide, by decide, by decide⟩
  | arr xs => exact ⟨'[', dumpElemsFirst xs ++ [']'], rfl, by decide, by decide, by decide⟩
  | obj ms =>
    exact ⟨'{', dumpMembersFirst ms ++ ['}'], rfl, by decide, by decide, by decide⟩

theorem contains_iff_mem {ks : List (List Char)} {k : List Char} :
    ks.contains k = true ↔ k ∈ ks := by
  induction ks with
  | nil => simp [List.contains]
  | cons a as ih =>
    simp only [List.contains_cons, Bool.or_eq_true, beq_iff_eq, ih, List.mem_cons]

theorem setKey_of_not_mem {k : List Char} {v : JVal} :
    ∀ l : List (List Char × JVal), k ∉ keysOf l → setKey l k v = l ++ [(k, v)] := by
  intro l
  induction l with
  | nil => intro _; rfl
  | cons p rest ih =>
    intro hk
    obtain ⟨k', v'⟩ := p
    simp only [keysOf, List.map_cons, List.mem_cons, not_or] at hk
    rw [setKey, if_neg (fun he => hk.1 he.symm)]
    rw [ih (by simpa [keysOf] using hk.2)]
    rfl

theorem setKey_of_getKey {k : List Char} {v : JVal} :
    ∀ l : List (List Char × JVal), getKey l k = some v → setKey l k v = l := by
  intro l
  induction l with
  | nil => intro h; simp [getKey] at h
  | cons p rest ih =>
    intro hg
    obtain ⟨k', v'⟩ := p
    by_cases hk : k' = k
    · rw [getKey, if_pos hk] at hg
      rw [setKey, if_pos hk, hk]
      cases hg
      rfl
    · rw [getKey, if_neg hk] at hg
      rw [setKey, if_neg hk, ih hg]

theorem foldl_setKey_of_disjoint :
    ∀ (ms acc : List (List Char × JVal)), nodupKeys (keysOf ms) = true →
      (∀ k ∈ keysOf ms, k ∉ keysOf acc) →
      List.foldl (fun a kv => setKey a kv.1 kv.2) acc ms = acc ++ ms := by
  intro ms
  induction ms with
  | nil => intro acc _ _; simp
  | cons p rest ih =>
    intro acc hnd hdis
    obtain ⟨k, v⟩ := p
    simp only [keysOf, List.map_cons, nodupKeys, Bool.and_eq_true,
      Bool.not_eq_true'] at hnd
    have hk_acc : k ∉ keysOf acc := hdis k (by simp [keysOf])
    simp only [List.foldl_cons]
    rw [setKey_of_not_mem acc hk_acc]
    rw [ih (acc ++ [(k, v)]) hnd.2 ?hdis2]
    · simp
    case hdis2 =>
      intro k2 hk2 hmem
      simp only [keysOf, List.map_append, List.map_cons, List.map_nil,
        List.mem_append, List.mem_singleton] at hmem
      rcases hmem with hmem | hmem
      · exact hdis k2
          (by simp only [keysOf, List.map_cons, List.mem_cons]; exact Or.inr hk2) hmem
      · subst hmem
        have : ¬ (List.map Prod.fst rest).contains k2 := by
          simpa using hnd.1
        exact this (contains_iff_mem.mpr (by simpa [keysOf] using hk2))

/-- Python's dict construction is the identity on duplicate-free member
lists. -/
theorem dedupObj_nodup {ms : List (List Char × JVal)}
    (h : nodupKeys (keysOf ms) = true) : dedupObj ms = ms := by
  rw [dedupObj, foldl_setKey_of_disjoint ms [] h (by simp [keysOf])]
  simp

theorem intDump_head (i : Int) : ∃ c t, intDump i = c :: t ∧ isJsonWs c = false ∧
    c ≠ 'n' ∧ c ≠ 't' ∧ c ≠ 'f' ∧ c ≠ '"' ∧ c ≠ '[' ∧ c ≠ '{' := by
  by_cases hneg : i < 0
  · exact ⟨'-', _, by rw [intDump, if_pos hneg], by decide, by decide, by decide,
      by decide, by decide, by decide, by decide⟩
  · obtain ⟨c, t, he, hd, -⟩ := natDigits_shape i.natAbs
    obtain ⟨-, -, -, -, -, -, -, h8, h9, h10, h11, h12, h13, h14⟩ := digit_facts hd
    exact ⟨c, t, by rw [intDump, if_neg hneg, he], h8, h9, h10, h11, h12, h13, h14⟩

theorem parseVal_eq_null {f : Nat} {cs R : List Char}
    (h : skipWs cs = 'n' :: 'u' :: 'l' :: 'l' :: R) :
    parseVal (f + 1) cs = some (.null, R) := by
  simp only [parseVal]
  rw [h]
  rfl

theorem parseVal_eq_true {f : Nat} {cs R : List Char}
    (h : skipWs cs = 't' :: 'r' :: 'u' :: 'e' :: R) :
    parseVal (f + 1) cs = some (.bool true, R) := by
  simp only [parseVal]
  rw [h]
  rfl

theorem parseVal_eq_false {f : Nat} {cs R : List Char}
    (h : skipWs cs = 'f' :: 'a' :: 'l' :: 's' :: 'e' :: R) :
    parseVal (f + 1) cs = some (.bool false, R) := by
  simp only [parseVal]
  rw [h]
  rfl

theorem parseVal_eq_str {f : Nat} {cs R : List Char} (h : skipWs cs = '"' :: R) :
    parseVal (f + 1) cs =
      (match parseStringBody R with
       | some (s, r) => some (.str s, r)
       | none => none) := by
  simp only [parseVal]
  rw [h]
  rfl

theorem parseVal_eq_arr {f : Nat} {cs R : List Char} (h : skipWs cs = '[' :: R) :
    parseVal (f + 1) cs =
      (if (skipWs R).head? = some ']' then some (.arr [], (skipWs R).tail)
       else
         match parseElems f (skipWs R) with
         | some (xs, r) => some (.arr xs, r)
         | none => none) := by
  simp only [parseVal]
  rw [h]
  rfl

theorem parseVal_eq_obj {f : Nat} {cs R : List Char} (h : skipWs cs = '{' :: R) :
    parseVal (f + 1) cs =
      (if (skipWs R).head? = some '}' then some (.obj [], (skipWs R).tail)
       else
         match parseMembers f (skipWs R) with
         | some (ms, r) => some (.obj (dedupObj ms), r)
         | none => none) := by
  simp only [parseVal]
  rw [h]
  rfl

theorem parseVal_eq_other {f : Nat} {cs R : List Char} {c : Char} (h : skipWs cs = c :: R)
    (h1 : c ≠ 'n') (h2 : c ≠ 't') (h3 : c ≠ 'f') (h4 : c ≠ '"') (h5 : c ≠ '[')
    (h6 : c ≠ '{') :
    parseVal (f + 1) cs =
      (match parseNum (c :: R) with
       | some (i, r) => some (.num i, r)
       | none => none) := by
  simp only [parseVal]
  rw [h]
  simp only [if_neg h1, if_neg h2, if_neg h3, if_neg h4, if_neg h5, if_neg h6]

theorem parseElems_succ (f : Nat) (cs : List Char) :
    parseElems (f + 1) cs =
      (match parseVal f cs with
       | none => none
       | some (v, r1) =>
         if (skipWs r1).head? = some ',' then
           match parseElems f (skipWs r1).tail with
           | some (xs, r) => some (v :: xs, r)
           | none => none
         else if (skipWs r1).head? = some ']' then some ([v], (skipWs r1).tail)
         else none) := rfl

theorem parseMembers_quote {f : Nat} {cs R : List Char} (h : skipWs cs = '"' :: R) :
    parseMembers (f + 1) cs =
      (match parseStringBody R with
       | none => none
       | some (k, r1) =>
         if (skipWs r1).head? = some ':' then
           match parseVal f (skipWs r1).tail with
           | none => none
           | some (v, r2) =>
             if (skipWs r2).head? = some ',' then
               match parseMembers f (skipWs r2).tail with
               | some (ms, r) => some ((k, v) :: ms, r)
               | none => none
             else if (skipWs r2).head? = some '}' then some ([(k, v)], (skipWs r2).tail)
             else none
         else none) := by
  simp only [parseMembers]
  rw [h]
  rfl

theorem parseElems_step {f : Nat} {cs R : List Char} {v : JVal}
    (h : parseVal f cs = some (v, R)) :
    parseElems (f + 1) cs =
      (if (skipWs R).head? = some ',' then
         match parseElems f (skipWs R).tail with
         | some (xs, r) => some (v :: xs, r)
         | none => none
       else if (skipWs R).head? = some ']' then some ([v], (skipWs R).tail)
       else none) := by
  rw [parseElems_succ, h]

theorem parseMembers_step {f : Nat} {cs R r1 : List Char} {k : List Char} {v : JVal}
    {u : List Char} (h : skipWs cs = '"' :: R)
    (h2 : parseStringBody R = some (k, r1)) (h3 : (skipWs r1).head? = some ':')
    (h4 : parseVal f (skipWs r1).tail = some (v, u)) :
    parseMembers (f + 1) cs =
      (if (skipWs u).head? = some ',' then
         match parseMembers f (skipWs u).tail with
         | some (ms, r) => some ((k, v) :: ms, r)
         | none => none
       else if (skipWs u).head? = some '}' then some ([(k, v)], (skipWs u).tail)
       else none) := by
  rw [parseMembers_quote h, h2]
  simp [h3, h4]

/-- Round trip of the serializer through the parser: whitespace prefix,
value, legitimate suffix. The three conjuncts follow the three mutually
recursive parser functions. -/
theorem parse_dump_all : ∀ fuel : Nat,
    (∀ sp v rest, (∀ c ∈ sp, isJsonWs c = true) → wfj v = true → jsize v ≤ fuel →
      restOk rest = true → parseVal fuel (sp ++ (dump v ++ rest)) = some (v, rest)) ∧
    (∀ sp xs rest, (∀ c ∈ sp, isJsonWs c = true) → wfjList xs = true → xs ≠ [] →
      jsizeList xs ≤ fuel → restOk rest = true →
      parseElems fuel (sp ++ (dumpElemsFirst xs ++ ']' :: rest)) = some (xs, rest)) ∧
    (∀ sp ms rest, (∀ c ∈ sp, isJsonWs c = true) → wfjMems ms = true → ms ≠ [] →
      jsizeMems ms ≤ fuel → restOk rest = true →
      parseMembers fuel (sp ++ (dumpMembersFirst ms ++ '}' :: rest)) = some (ms, rest)) := by
  intro fuel
  induction fuel with
  | zero =>
    refine ⟨?_, ?_, ?_⟩
    · intro sp v rest _ _ hsz _
      exact absurd hsz (by have := jsize_pos v; omega)
    · intro sp xs rest _ _ hne hsz _
      match xs with
      | x :: xs =>
        rw [jsizeList_cons] at hsz
        exact absurd hsz (by have := jsize_pos x; omega)
    · intro sp ms rest _ _ hne hsz _
      match ms with
      | (k, v) :: ms =>
        rw [jsizeMems_cons] at hsz
        exact absurd hsz (by have := jsize_pos v; omega)
  | succ f ihf =>
    obtain ⟨ihv, ihe, ihm⟩ := ihf
    refine ⟨?_, ?_, ?_⟩
    · intro sp v rest hsp hwf hsz hrest
      cases v with
      | null =>
        exact parseVal_eq_null (by
          rw [show dump .null ++ rest = 'n' :: 'u' :: 'l' :: 'l' :: rest from rfl,
            skipWs_append_of_ws hsp, skipWs_cons_of_not_ws (by decide)])
      | bool b =>
        cases b with
        | true =>
          exact parseVal_eq_true (by
            rw [show dump (.bool true) ++ rest = 't' :: 'r' :: 'u' :: 'e' :: rest from rfl,
              skipWs_append_of_ws hsp, skipWs_cons_of_not_ws (by decide)])
        | false =>
          exact parseVal_eq_false (by
            rw [show dump (.bool false) ++ rest =
              'f' :: 'a' :: 'l' :: 's' :: 'e' :: rest from rfl,
              skipWs_append_of_ws hsp, skipWs_cons_of_not_ws (by decide)])
      | num i =>
        obtain ⟨c0, t0, he, hws, hn, ht, hf2, hq, hlb, hob⟩ := intDump_head i
        rw [parseVal_eq_other (c := c0) (R := t0 ++ rest) ?hsw hn ht hf2 hq hlb hob]
        case hsw =>
          rw [show dump (.num i) = intDump i from rfl, skipWs_append_of_ws hsp, he,
            List.cons_append, skipWs_cons_of_not_ws hws]
        rw [show c0 :: (t0 ++ rest) = intDump i ++ rest from by rw [he, List.cons_append],
          parseNum_intDump i rest hrest]
      | str s =>
        rw [parseVal_eq_str (R := dumpStringBody s ++ '"' :: rest) ?hsw]
        case hsw =>
          rw [show dump (.str s) ++ rest = '"' :: (dumpStringBody s ++ '"' :: rest) from by
            rw [show dump (.str s) = '"' :: dumpStringBody s ++ ['"'] from rfl]
            simp, skipWs_append_of_ws hsp, skipWs_cons_of_not_ws (by decide)]
        rw [parseStringBody_dump s rest]
      | arr xs =>
        cases xs with
        | nil =>
          rw [parseVal_eq_arr (R := ']' :: rest) ?hsw]
          case hsw =>
            rw [show dump (.arr []) ++ rest = '[' :: ']' :: rest from rfl,
              skipWs_append_of_ws hsp, skipWs_cons_of_not_ws (by decide)]
          rw [skipWs_cons_of_not_ws (by decide)]
          simp
        | cons x xs2 =>
          obtain ⟨c0, t0, he0, hws0, hne0, -⟩ := dump_shape x
          have hfe : dumpElemsFirst (x :: xs2) ++ ']' :: rest =
              c0 :: (t0 ++ (dumpElemsRest xs2 ++ ']' :: rest)) := by
            rw [show dumpElemsFirst (x :: xs2) = dump x ++ dumpElemsRest xs2 from rfl, he0]
            simp
          rw [parseVal_eq_arr (R := dumpElemsFirst (x :: xs2) ++ ']' :: rest) ?hsw]
          case hsw =>
            rw [show dump (.arr (x :: xs2)) ++ rest =
                '[' :: (dumpElemsFirst (x :: xs2) ++ ']' :: rest) from by
              rw [show dump (.arr (x :: xs2)) =
                '[' :: dumpElemsFirst (x :: xs2) ++ [']'] from rfl]
              simp, skipWs_append_of_ws hsp, skipWs_cons_of_not_ws (by decide)]
          rw [show skipWs (dumpElemsFirst (x :: xs2) ++ ']' :: rest) =
              dumpElemsFirst (x :: xs2) ++ ']' :: rest from by
            rw [hfe, skipWs_cons_of_not_ws hws0]]
          rw [if_neg (by rw [hfe]; simpa using hne0)]
          have he2 := ihe [] (x :: xs2) rest (by simp)
            (by simpa [show wfj (.arr (x :: xs2)) = wfjList (x :: xs2) from rfl] using hwf)
            (by simp)
            (by have h0 : jsize (.arr (x :: xs2)) = 2 + jsizeList (x :: xs2) := rfl
                omega)
            hrest
          rw [List.nil_append] at he2
          rw [he2]
      | obj ms =>
        cases ms with
        | nil =>
          rw [parseVal_eq_obj (R := '}' :: rest) ?hsw]
          case hsw =>
            rw [show dump (.obj []) ++ rest = '{' :: '}' :: rest from rfl,
              skipWs_append_of_ws hsp, skipWs_cons_of_not_ws (by decide)]
          rw [skipWs_cons_of_not_ws (by decide)]
          simp [dedupObj]
        | cons m ms2 =>
          obtain ⟨k, v⟩ := m
          have hwf2 : nodupKeys (keysOf ((k, v) :: ms2)) = true ∧
              wfjMems ((k, v) :: ms2) = true := by
            have h0 : wfj (.obj ((k, v) :: ms2)) =
                (nodupKeys (keysOf ((k, v) :: ms2)) && wfjMems ((k, v) :: ms2)) := rfl
            rw [h0] at hwf
            simpa using hwf
          have hfm : dumpMembersFirst ((k, v) :: ms2) ++ '}' :: rest =
              '"' :: (dumpStringBody k ++ ('"' :: (':' :: ' ' ::
                ((dump v ++ dumpMembersRest ms2) ++ '}' :: rest)))) := by
            rw [show dumpMembersFirst ((k, v) :: ms2) =
              dumpString k ++ ':' :: ' ' :: (dump v ++ dumpMembersRest ms2) from rfl]
            simp [dumpString]
          rw [parseVal_eq_obj (R := dumpMembersFirst ((k, v) :: ms2) ++ '}' :: rest) ?hsw]
          case hsw =>
            rw [show dump (.obj ((k, v) :: ms2)) ++ rest =
                '{' :: (dumpMembersFirst ((k, v) :: ms2) ++ '}' :: rest) from by
              rw [show dump (.obj ((k, v) :: ms2)) =
                '{' :: dumpMembersFirst ((k, v) :: ms2) ++ ['}'] from rfl]
              simp, skipWs_append_of_ws hsp, skipWs_cons_of_not_ws (by decide)]
          rw [show skipWs (dumpMembersFirst ((k, v) :: ms2) ++ '}' :: rest) =
              dumpMembersFirst ((k, v) :: ms2) ++ '}' :: rest from by
            rw [hfm, skipWs_cons_of_not_ws (by decide)]]
          rw [if_neg (by rw [hfm]; simp)]
          have hm2 := ihm [] ((k, v) :: ms2) rest (by simp) hwf2.2 (by simp)
            (by have h0 : jsize (.obj ((k, v) :: ms2)) = 2 + jsizeMems ((k, v) :: ms2) := rfl
                omega)
            hrest
          rw [List.nil_append] at hm2
          rw [hm2]
          simp [dedupObj_nodup hwf2.1]
    · intro sp xs rest hsp hwf hne hsz hrest
      match xs with
      | x :: xs2 =>
        have hwfx : wfj x = true ∧ wfjList xs2 = true := by
          have h0 : wfjList (x :: xs2) = (wfj x && wfjList xs2) := rfl
          rw [h0] at hwf
          simpa using hwf
        rw [jsizeList_cons] at hsz
        have hjx := jsize_pos x
        cases xs2 with
        | nil =>
          have hv := ihv sp x (']' :: rest) hsp hwfx.1 (by omega) (by simp [restOk])
          rw [show sp ++ (dumpElemsFirst [x] ++ ']' :: rest) =
              sp ++ (dump x ++ ']' :: rest) from by
            rw [show dumpElemsFirst [x] = dump x ++ dumpElemsRest [] from rfl,
              show dumpElemsRest ([] : List JVal) = [] from rfl]
            simp]
          rw [parseElems_step hv, skipWs_cons_of_not_ws (by decide)]
          simp only [List.head?_cons, List.tail_cons]
          simp
        | cons y ys =>
          have hv := ihv sp x (',' :: ' ' :: (dumpElemsFirst (y :: ys) ++ ']' :: rest))
            hsp hwfx.1 (by omega) (by simp [restOk])
          rw [show sp ++ (dumpElemsFirst (x :: y :: ys) ++ ']' :: rest) =
              sp ++ (dump x ++ (',' :: ' ' :: (dumpElemsFirst (y :: ys) ++ ']' :: rest)))
              from by
            rw [show dumpElemsFirst (x :: y :: ys) =
              dump x ++ dumpElemsRest (y :: ys) from rfl,
              show dumpElemsRest (y :: ys) = ',' :: ' ' :: dumpElemsFirst (y :: ys) from rfl]
            simp]
          rw [parseElems_step hv, skipWs_cons_of_not_ws (by decide)]
          simp only [List.head?_cons, List.tail_cons]
          rw [if_pos trivial]
          have he3 := ihe [' '] (y :: ys) rest (by decide) hwfx.2 (by simp)
            (by rw [jsizeList_cons] at hsz ⊢
                omega)
            hrest
          rw [show [' '] ++ (dumpElemsFirst (y :: ys) ++ ']' :: rest) =
              ' ' :: (dumpElemsFirst (y :: ys) ++ ']' :: rest) from by simp] at he3
          rw [he3]
    · intro sp ms rest hsp hwf hne hsz hrest
      match ms with
      | (k, v) :: ms2 =>
        have hwfv : wfj v = true ∧ wfjMems ms2 = true := by
          have h0 : wfjMems ((k, v) :: ms2) = (wfj v && wfjMems ms2) := rfl
          rw [h0] at hwf
          simpa using hwf
        rw [jsizeMems_cons] at hsz
        have hjv := jsize_pos v
        have hshape : sp ++ (dumpMembersFirst ((k, v) :: ms2) ++ '}' :: rest) =
            sp ++ ('"' :: (dumpStringBody k ++ ('"' :: (':' :: ' ' ::
              (dump v ++ (dumpMembersRest ms2 ++ '}' :: rest)))))) := by
          rw [show dumpMembersFirst ((k, v) :: ms2) =
            dumpString k ++ ':' :: ' ' :: (dump v ++ dumpMembersRest ms2) from rfl,
            dumpString]
          simp
        rw [hshape]
        cases ms2 with
        | nil =>
          have hv2 := ihv [' '] v ('}' :: rest) (by decide) hwfv.1 (by omega)
            (by simp [restOk])
          rw [show [' '] ++ (dump v ++ '}' :: rest) =
            ' ' :: (dump v ++ '}' :: rest) from by simp] at hv2
          rw [show dumpMembersRest ([] : List (List Char × JVal)) = [] from rfl]
          rw [show sp ++ ('"' :: (dumpStringBody k ++ ('"' :: (':' :: ' ' ::
              (dump v ++ ([] ++ '}' :: rest)))))) =
            sp ++ ('"' :: (dumpStringBody k ++ ('"' :: (':' :: ' ' ::
              (dump v ++ '}' :: rest))))) from by simp]
          rw [parseMembers_step (v := v) (u := '}' :: rest) ?hq ?hk ?hc ?hv3]
          case hq =>
            rw [skipWs_append_of_ws hsp, skipWs_cons_of_not_ws (by decide)]
          case hk => exact parseStringBody_dump k _
          case hc =>
            rw [skipWs_cons_of_not_ws (by decide)]
            rfl
          case hv3 =>
            rw [skipWs_cons_of_not_ws (by decide)]
            exact hv2
          rw [skipWs_cons_of_not_ws (by decide)]
          simp only [List.head?_cons, List.tail_cons]
          simp
        | cons m2 mss =>
          obtain ⟨k2, v2⟩ := m2
          have hv2 := ihv [' '] v
            (',' :: ' ' :: (dumpMembersFirst ((k2, v2) :: mss) ++ '}' :: rest))
            (by decide) hwfv.1 (by omega) (by simp [restOk])
          rw [show [' '] ++ (dump v ++ (',' :: ' ' ::
              (dumpMembersFirst ((k2, v2) :: mss) ++ '}' :: rest))) =
            ' ' :: (dump v ++ (',' :: ' ' ::
              (dumpMembersFirst ((k2, v2) :: mss) ++ '}' :: rest))) from by simp] at hv2
          rw [show dumpMembersRest ((k2, v2) :: mss) =
            ',' :: ' ' :: dumpMembersFirst ((k2, v2) :: mss) from rfl]
          rw [show sp ++ ('"' :: (dumpStringBody k ++ ('"' :: (':' :: ' ' ::
              (dump v ++ (',' :: ' ' :: dumpMembersFirst ((k2, v2) :: mss) ++
                '}' :: rest)))))) =
            sp ++ ('"' :: (dumpStringBody k ++ ('"' :: (':' :: ' ' ::
              (dump v ++ (',' :: ' ' ::
                (dumpMembersFirst ((k2, v2) :: mss) ++ '}' :: rest))))))) from by simp]
          rw [parseMembers_step (v := v)
            (u := ',' :: ' ' :: (dumpMembersFirst ((k2, v2) :: mss) ++ '}' :: rest))
            ?hq ?hk ?hc ?hv3]
          case hq =>
            rw [skipWs_append_of_ws hsp, skipWs_cons_of_not_ws (by decide)]
          case hk => exact parseStringBody_dump k _
          case hc =>
            rw [skipWs_cons_of_not_ws (by decide)]
            rfl
          case hv3 =>
            rw [skipWs_cons_of_not_ws (by decide)]
            exact hv2
          rw [skipWs_cons_of_not_ws (by decide)]
          simp only [List.head?_cons, List.tail_cons]
          rw [if_pos trivial]
          have hm3 := ihm [' '] ((k2, v2) :: mss) rest (by decide) hwfv.2 (by simp)
            (by rw [jsizeMems_cons] at hsz ⊢
                omega)
            hrest
          rw [show [' '] ++ (dumpMembersFirst ((k2, v2) :: mss) ++ '}' :: rest) =
            ' ' :: (dumpMembersFirst ((k2, v2) :: mss) ++ '}' :: rest) from by simp] at hm3
          rw [hm3]

/-! ## From the round trip to `loads` -/

mutual

theorem jsize_le_dump : (v : JVal) → jsize v ≤ 2 * (dump v).length
  | .null => by simp [jsize, dump]
  | .bool b => by cases b <;> simp [jsize, dump]
  | .num i => by
    obtain ⟨c, t, he, -, -⟩ := dump_shape (.num i)
    rw [show jsize (.num i) = 1 from rfl, he]
    simp
    omega
  | .str s => by
    rw [show jsize (.str s) = 1 from rfl,
      show dump (.str s) = '"' :: dumpStringBody s ++ ['"'] from rfl]
    simp
    omega
  | .arr xs => by
    match xs with
    | [] =>
      rw [show jsize (.arr []) = 2 + jsizeList [] from rfl,
        show jsizeList ([] : List JVal) = 0 from rfl]
      simp [dump, dumpElemsFirst]
    | x :: xs =>
      have h1 := jsize_le_dump x
      have h2 := jsizeList_le_dump xs
      rw [show jsize (.arr (x :: xs)) = 2 + (1 + jsize x + jsizeList xs) from rfl,
        show dump (.arr (x :: xs)) =
          '[' :: (dump x ++ dumpElemsRest xs) ++ [']'] from rfl]
      simp
      omega
  | .obj ms => by
    match ms with
    | [] =>
      rw [show jsize (.obj []) = 2 + jsizeMems [] from rfl,
        show jsizeMems ([] : List (List Char × JVal)) = 0 from rfl]
      simp [dump, dumpMembersFirst]
    | (k, v) :: ms =>
      have h1 := jsize_le_dump v
      have h2 := jsizeMems_le_dump ms
      rw [show jsize (.obj ((k, v) :: ms)) = 2 + (1 + jsize v + jsizeMems ms) from rfl,
        show dump (.obj ((k, v) :: ms)) =
          '{' :: (dumpString k ++ ':' :: ' ' :: (dump v ++ dumpMembersRest ms)) ++ ['}']
          from rfl, dumpString]
      simp
      omega

theorem jsizeList_le_dump : (xs : List JVal) → jsizeList xs ≤ 2 * (dumpElemsRest xs).length + 1
  | [] => by simp [jsizeList, dumpElemsRest]
  | x :: xs => by
    have h1 := jsize_le_dump x
    have h2 := jsizeList_le_dump xs
    rw [show jsizeList (x :: xs) = 1 + jsize x + jsizeList xs from rfl,
      show dumpElemsRest (x :: xs) = ',' :: ' ' :: (dump x ++ dumpElemsRest xs) from rfl]
    simp
    omega

theorem jsizeMems_le_dump :
    (ms : List (List Char × JVal)) → jsizeMems ms ≤ 2 * (dumpMembersRest ms).length + 1
  | [] => by simp [jsizeMems, dumpMembersRest]
  | (k, v) :: ms => by
    have h1 := jsize_le_dump v
    have h2 := jsizeMems_le_dump ms
    rw [show jsizeMems ((k, v) :: ms) = 1 + jsize v + jsizeMems ms from rfl,
      show dumpMembersRest ((k, v) :: ms) =
        ',' :: ' ' :: (dumpString k ++ ':' :: ' ' :: (dump v ++ dumpMembersRest ms))
        from rfl, dumpString]
    simp
    omega

end

/-- `json.loads` inverts `json.dumps` on well-formed values. -/
theorem loads_dump {v : JVal} (h : wfj v = true) : loads (dump v) = some v := by
  have hm := (parse_dump_all (2 * (dump v).length + 2)).1 [] v [] (by simp) h
    (by have := jsize_le_dump v; omega) rfl
  simp only [List.nil_append, List.append_nil] at hm
  rw [loads, hm]
  rfl

/-! ## No newline ever appears in a serialized message -/

theorem hexDigit_ne_nl {d : Nat} (hd : d < 16) : hexDigit d ≠ '\n' := by
  rw [hexDigit]
  by_cases hc : d < 10
  · rw [if_pos hc]
    intro he
    have h2 := congrArg Char.toNat he
    rw [toNat_ofNat_small (by omega), (by decide : ('\n' : Char).toNat = 10)] at h2
    omega
  · rw [if_neg hc]
    intro he
    have h2 := congrArg Char.toNat he
    rw [toNat_ofNat_small (by omega), (by decide : ('\n' : Char).toNat = 10)] at h2
    omega

theorem escapeChar_no_nl (c : Char) : '\n' ∉ escapeChar c := by
  by_cases h1 : c = '"'
  · subst h1; decide
  · by_cases h2 : c = '\\'
    · subst h2; decide
    · by_cases h3 : c = '\n'
      · subst h3; decide
      · by_cases h4 : c = '\t'
        · subst h4; decide
        · by_cases h5 : c = '\r'
          · subst h5; decide
          · by_cases h6 : c = Char.ofNat 8
            · subst h6; decide
            · by_cases h7 : c = Char.ofNat 12
              · subst h7; decide
              · by_cases h8 : c.toNat < 32
                · rw [escapeChar, if_neg h1, if_neg h2, if_neg h3, if_neg h4, if_neg h5,
                    if_neg h6, if_neg h7, if_pos h8]
                  intro hmem
                  simp only [List.mem_cons, List.not_mem_nil, or_false] at hmem
                  rcases hmem with h | h | h | h | h | h
                  · exact absurd h (by decide)
                  · exact absurd h (by decide)
                  · exact absurd h (by decide)
                  · exact absurd h (by decide)
                  · exact hexDigit_ne_nl (by omega) h.symm
                  · exact hexDigit_ne_nl (by omega) h.symm
                · rw [escapeChar, if_neg h1, if_neg h2, if_neg h3, if_neg h4, if_neg h5,
                    if_neg h6, if_neg h7, if_neg h8]
                  intro hmem
                  simp only [List.mem_singleton] at hmem
                  exact h3 hmem.symm

theorem dumpStringBody_no_nl (s : List Char) : '\n' ∉ dumpStringBody s := by
  induction s with
  | nil => simp [dumpStringBody]
  | cons c cs ih =>
    rw [dumpStringBody]
    intro hmem
    rcases List.mem_append.mp hmem with h | h
    · exact escapeChar_no_nl c h
    · exact ih h

theorem natDigits_no_nl (n : Nat) : '\n' ∉ natDigits n := by
  intro hmem
  have h2 := natDigits_digits _ hmem
  simp [isDigitCh] at h2

theorem intDump_no_nl (i : Int) : '\n' ∉ intDump i := by
  rw [intDump]
  by_cases h : i < 0
  · rw [if_pos h]
    intro hmem
    rcases List.mem_cons.mp hmem with h2 | h2
    · exact absurd h2 (by decide)
    · exact natDigits_no_nl _ h2
  · rw [if_neg h]
    exact natDigits_no_nl _

mutual

theorem dump_no_nl : (v : JVal) → '\n' ∉ dump v
  | .null => by decide
  | .bool b => by cases b <;> decide
  | .num i => intDump_no_nl i
  | .str s => by
    rw [show dump (.str s) = '"' :: dumpStringBody s ++ ['"'] from rfl]
    intro hmem
    rcases List.mem_cons.mp hmem with h | h
    · exact absurd h (by decide)
    · rcases List.mem_append.mp h with h | h
      · exact dumpStringBody_no_nl s h
      · simp at h
  | .arr xs => by
    rw [show dump (.arr xs) = '[' :: dumpElemsFirst xs ++ [']'] from rfl]
    intro hmem
    rcases List.mem_cons.mp hmem with h | h
    · exact absurd h (by decide)
    · rcases List.mem_append.mp h with h | h
      · exact dumpElemsFirst_no_nl xs h
      · simp at h
  | .obj ms => by
    rw [show dump (.obj ms) = '{' :: dumpMembersFirst ms ++ ['}'] from rfl]
    intro hmem
    rcases List.mem_cons.mp hmem with h | h
    · exact absurd h (by decide)
    · rcases List.mem_append.mp h with h | h
      · exact dumpMembersFirst_no_nl ms h
      · simp at h

theorem dumpElemsFirst_no_nl : (xs : List JVal) → '\n' ∉ dumpElemsFirst xs
  | [] => by simp [dumpElemsFirst]
  | x :: xs => by
    rw [show dumpElemsFirst (x :: xs) = dump x ++ dumpElemsRest xs from rfl]
    intro hmem
    rcases List.mem_append.mp hmem with h | h
    · exact dump_no_nl x h
    · exact dumpElemsRest_no_nl xs h

theorem dumpElemsRest_no_nl : (xs : List JVal) → '\n' ∉ dumpElemsRest xs
  | [] => by simp [dumpElemsRest]
  | x :: xs => by
    rw [show dumpElemsRest (x :: xs) = ',' :: ' ' :: (dump x ++ dumpElemsRest xs) from rfl]
    intro hmem
    rcases List.mem_cons.mp hmem with h | h
    · exact absurd h (by decide)
    · rcases List.mem_cons.mp h with h | h
      · exact absurd h (by decide)
      · rcases List.mem_append.mp h with h | h
        · exact dump_no_nl x h
        · exact dumpElemsRest_no_nl xs h

theorem dumpMembersFirst_no_nl : (ms : List (List Char × JVal)) → '\n' ∉ dumpMembersFirst ms
  | [] => by simp [dumpMembersFirst]
  | (k, v) :: ms => by
    rw [show dumpMembersFirst ((k, v) :: ms) =
      dumpString k ++ ':' :: ' ' :: (dump v ++ dumpMembersRest ms) from rfl, dumpString]
    intro hmem
    rcases List.mem_append.mp hmem with h | h
    · rcases List.mem_cons.mp h with h | h
      · exact absurd h (by decide)
      · rcases List.mem_append.mp h with h | h
        · exact dumpStringBody_no_nl k h
        · simp at h
    · rcases List.mem_cons.mp h with h | h
      · exact absurd h (by decide)
      · rcases List.mem_cons.mp h with h | h
        · exact absurd h (by decide)
        · rcases List.mem_append.mp h with h | h
          · exact dump_no_nl v h
          · exact dumpMembersRest_no_nl ms h

theorem dumpMembersRest_no_nl : (ms : List (List Char × JVal)) → '\n' ∉ dumpMembersRest ms
  | [] => by simp [dumpMembersRest]
  | (k, v) :: ms => by
    rw [show dumpMembersRest ((k, v) :: ms) =
      ',' :: ' ' :: (dumpString k ++ ':' :: ' ' :: (dump v ++ dumpMembersRest ms)) from rfl,
      dumpString]
    intro hmem
    rcases List.mem_cons.mp hmem with h | h
    · exact absurd h (by decide)
    · rcases List.mem_cons.mp h with h | h
      · exact absurd h (by decide)
      · rcases List.mem_append.mp h with h | h
        · rcases List.mem_cons.mp h with h | h
          · exact absurd h (by decide)
          · rcases List.mem_append.mp h with h | h
            · exact dumpStringBody_no_nl k h
            · simp at h
        · rcases List.mem_cons.mp h with h | h
          · exact absurd h (by decide)
          · rcases List.mem_cons.mp h with h | h
            · exact absurd h (by decide)
            · rcases List.mem_append.mp h with h | h
              · exact dump_no_nl v h
              · exact dumpMembersRest_no_nl ms h

end

/-- Splitting a framed line at the first newline recovers the line exactly
when the line itself holds no newline. -/
theorem splitNl_frame {l : List Char} (h : '\n' ∉ l) (t : List Char) :
    splitNl? (l ++ '\n' :: t) = some (l, t) := by
  induction l with
  | nil => simp [splitNl?]
  | cons c cs ih =>
    have hc : c ≠ '\n' := fun he => h (he ▸ List.mem_cons_self c cs)
    rw [List.cons_append, splitNl?, if_neg hc,
      ih (fun hm => h (List.mem_cons_of_mem c hm)), consRes]

/-! ## Round trips for `SimpleMessage` -/

theorem wfj_obj_eq (ms : List (List Char × JVal)) :
    wfj (.obj ms) = (nodupKeys (keysOf ms) && wfjMems ms) := rfl

theorem wfjMems_cons_eq (k : List Char) (v : JVal) (ms : List (List Char × JVal)) :
    wfjMems ((k, v) :: ms) = (wfj v && wfjMems ms) := rfl

/-- Unpacking `SimpleMessage.wf`. -/
theorem wf_fields {m : SimpleMessage} (h : m.wf = true) :
    wfj m.agent_id = true ∧ wfj m.content = true ∧ wfj m.direction = true ∧
    wfj m.timestamp = true ∧ wfj m.msg_id = true ∧
    ∃ kvs, m.metadata = .obj kvs ∧ nodupKeys (keysOf kvs) = true ∧
      wfjMems kvs = true ∧ ∃ tv, getKey kvs "type".data = some tv := by
  rw [SimpleMessage.wf] at h
  rcases hm : m.metadata with _ | _ | _ | _ | _ | kvs <;> rw [hm] at h
  · simp only [Bool.and_eq_true] at h
    exact absurd h.2 (by decide)
  · simp only [Bool.and_eq_true] at h
    exact absurd h.2 (by decide)
  · simp only [Bool.and_eq_true] at h
    exact absurd h.2 (by decide)
  · simp only [Bool.and_eq_true] at h
    exact absurd h.2 (by decide)
  · simp only [Bool.and_eq_true] at h
    exact absurd h.2 (by decide)
  · simp only [Bool.and_eq_true] at h
    obtain ⟨⟨⟨⟨⟨ha, hc⟩, hd⟩, ht⟩, hi⟩, ⟨hnd, hwm⟩, hsome⟩ := h
    obtain ⟨tv, htv⟩ := Option.isSome_iff_exists.mp hsome
    exact ⟨ha, hc, hd, ht, hi, kvs, rfl, hnd, hwm, tv, htv⟩

/-- The serialized `__dict__` of a well-formed message is well-formed JSON. -/
theorem to_dict_wf {m : SimpleMessage} (h : m.wf = true) :
    wfj (.obj m.to_dict) = true := by
  obtain ⟨h1, h2, h3, h4, h5, kvs, hmeta, hnd, hwm, -⟩ := wf_fields h
  rw [wfj_obj_eq]
  rw [show keysOf (SimpleMessage.to_dict m) =
    ["agent_id".data, "content".data, "direction".data, "timestamp".data,
      "msg_id".data, "metadata".data] from rfl]
  rw [show wfjMems (SimpleMessage.to_dict m) =
    (wfj m.agent_id && (wfj m.content && (wfj m.direction && (wfj m.timestamp &&
      (wfj m.msg_id && (wfj m.metadata && true)))))) from rfl]
  rw [h1, h2, h3, h4, h5, hmeta, wfj_obj_eq, hnd, hwm]
  rw [(by decide : nodupKeys ["agent_id".data, "content".data, "direction".data,
    "timestamp".data, "msg_id".data, "metadata".data] = true)]
  rfl

theorem getKey_ne_nil {kvs : List (List Char × JVal)} {k : List Char} {v : JVal}
    (h : getKey kvs k = some v) : kvs ≠ [] := by
  intro he
  rw [he] at h
  simp [getKey] at h

/-- The relay server's `from_json` inverts `to_json` except on `timestamp`,
which it regenerates from the clock. -/
theorem relay_roundtrip {m : SimpleMessage} (h : m.wf = true) (now : List Char) :
    relay_from_json now m.to_json = some { m with timestamp := .str now } := by
  obtain ⟨h1, h2, h3, h4, h5, kvs, hmeta, hnd, hwm, tv, htv⟩ := wf_fields h
  rw [relay_from_json, SimpleMessage.to_json, loads_dump (to_dict_wf h)]
  show relay_from_dict now (.obj m.to_dict) = some { m with timestamp := .str now }
  rw [relay_from_dict]
  rw [show getKey (SimpleMessage.to_dict m) "metadata".data = some m.metadata from rfl,
    show getKey (SimpleMessage.to_dict m) "agent_id".data = some m.agent_id from rfl,
    show getKey (SimpleMessage.to_dict m) "content".data = some m.content from rfl,
    show getKey (SimpleMessage.to_dict m) "direction".data = some m.direction from rfl,
    show getKey (SimpleMessage.to_dict m) "msg_id".data = some m.msg_id from rfl,
    hmeta]
  simp only [htv, Option.getD_some]
  rw [SimpleMessage.init]
  have hk : kvs ≠ [] := getKey_ne_nil htv
  rw [show pyTruthy (.obj kvs) = !(kvs == []) from by simp [pyTruthy, bne], if_pos ?hkb]
  case hkb => simp [hk]
  simp only [setKey_of_getKey kvs htv]

/-- The GUI client's `from_json` inverts `to_json` on every field. -/
theorem backup_roundtrip {m : SimpleMessage} (h : m.wf = true) (now : List Char) :
    backup_from_json now m.to_json = some m := by
  rw [backup_from_json, SimpleMessage.to_json, loads_dump (to_dict_wf h)]
  rfl

/-! ## Claim C1 -/

/-- **C1** (amended): serializing a well-formed `SimpleMessage` yields one
newline-free line whose framing split recovers it exactly; parsing it back
with the GUI client's `from_json` (`src/backups/ai_codebox_app.py`)
preserves every field; parsing it back with the relay server's `from_json`
(`src/relay_server.py`) preserves `agent_id`, `content`, `direction`,
`msg_id` and `metadata`, but sets `timestamp` to the parse-time clock
instead of preserving it. -/
theorem c1_roundtrip_amended (m : SimpleMessage) (now tail : List Char)
    (h : m.wf = true) :
    '\n' ∉ m.to_json ∧
    splitNl? (m.to_json ++ '\n' :: tail) = some (m.to_json, tail) ∧
    backup_from_json now m.to_json = some m ∧
    relay_from_json now m.to_json = some { m with timestamp := .str now } := by
  have hnl : '\n' ∉ m.to_json := by
    rw [SimpleMessage.to_json]
    exact dump_no_nl _
  exact ⟨hnl, splitNl_frame hnl tail, backup_roundtrip h now, relay_roundtrip h now⟩

/-- C1 witness: the amended statement evaluated at a concrete well-formed
message and a concrete parse-time clock. -/
theorem c1_roundtrip_witness :
    sampleMessage.wf = true ∧
    ('\n' ∉ sampleMessage.to_json ∧
     splitNl? (sampleMessage.to_json ++ '\n' :: []) = some (sampleMessage.to_json, []) ∧
     backup_from_json "T1".data sampleMessage.to_json = some sampleMessage ∧
     relay_from_json "T1".data sampleMessage.to_json =
       some { sampleMessage with timestamp := .str "T1".data }) :=
  ⟨by decide, c1_roundtrip_amended sampleMessage "T1".data [] (by decide)⟩

/-- C1 counterexample: the claim as stated (every field preserved,
`timestamp` included) fails on the relay server's parser: at parse-time
clock `T1` the well-formed message stamped `T0` comes back different. -/
theorem c1_timestamp_counterexample :
    relay_from_json "T1".data sampleMessage.to_json =
      some { sampleMessage with timestamp := .str "T1".data } ∧
    ({ sampleMessage with timestamp := .str "T1".data } : SimpleMessage) ≠ sampleMessage ∧
    sampleMessage.wf = true :=
  ⟨by decide, by decide, by decide⟩

theorem contains_char_iff {l : List Char} {a : Char} : l.contains a = true ↔ a ∈ l := by
  induction l with
  | nil => simp [List.contains]
  | cons c cs ih =>
    simp only [List.contains_cons, Bool.or_eq_true, beq_iff_eq, ih, List.mem_cons]

theorem mem_of_mem_pyStrip {s : List Char} {c : Char} (h : c ∈ pyStrip s) : c ∈ s := by
  rw [pyStrip, List.mem_reverse] at h
  have h2 := (List.dropWhile_sublist (l := (s.dropWhile isPySpace).reverse)
    (p := isPySpace)).subset h
  rw [List.mem_reverse] at h2
  exact (List.dropWhile_sublist (l := s) (p := isPySpace)).subset h2

theorem findCloseParen_eq {t : List Char} (h : '\n' ∉ t) :
    findCloseParen t =
      (if t.contains ')' then some (t.takeWhile (fun c => c ≠ ')')) else none) := by
  induction t with
  | nil => simp [findCloseParen, List.contains]
  | cons c t ih =>
    by_cases hc : c = ')'
    · subst hc
      rw [findCloseParen, if_pos rfl, if_pos (by simp [List.contains_cons])]
      simp [List.takeWhile]
    · have hcn : c ≠ '\n' := fun he => h (he ▸ List.mem_cons_self c t)
      rw [findCloseParen, if_neg hc, if_neg hcn,
        ih (fun hm => h (List.mem_cons_of_mem c hm))]
      by_cases hmem : t.contains ')'
      · rw [if_pos hmem, if_pos ?hyes]
        case hyes =>
          simp only [List.contains_cons, Bool.or_eq_true]
          exact Or.inr hmem
        simp [List.takeWhile, hc]
      · rw [if_neg hmem, if_neg ?hno]
        case hno =>
          simp only [List.contains_cons, Bool.or_eq_true, beq_iff_eq]
          rintro (he | he)
          · exact hc he.symm
          · exact hmem he

theorem specSpan_nil : specSpan [] = none := by
  simp [specSpan]

theorem specSpan_cons_of_not_lit {c : Char} {rest : List Char}
    (h : litAt (c :: rest) 0 = false) : specSpan (c :: rest) = specSpan rest := by
  rw [specSpan, specSpan]
  rw [show (c :: rest).length = rest.length + 1 from rfl, List.range_succ_eq_map]
  rw [List.find?_cons]
  rw [h]
  rw [List.find?_map]
  have hcomp : (litAt (c :: rest) ∘ Nat.succ) = litAt rest := by
    funext j
    simp only [Function.comp]
    rw [litAt, litAt, List.drop_succ_cons]
  rw [hcomp]
  cases hf : (List.range rest.length).find? (litAt rest) with
  | none => rfl
  | some j =>
    have hdj : List.drop (Nat.succ j + 12) (c :: rest) = List.drop (j + 12) rest := by
      rw [show Nat.succ j + 12 = (j + 12) + 1 from by omega, List.drop_succ_cons]
    simp [hdj]

theorem specSpan_cons_of_lit {c : Char} {rest : List Char}
    (h : litAt (c :: rest) 0 = true) :
    specSpan (c :: rest) =
      (if (List.drop 12 (c :: rest)).contains ')' then
        some ((List.drop 12 (c :: rest)).takeWhile (fun d => d ≠ ')'))
      else none) := by
  rw [specSpan]
  rw [show (c :: rest).length = rest.length + 1 from rfl, List.range_succ_eq_map]
  rw [List.find?_cons]
  rw [h]

theorem toolActionSearch_eq_specSpan :
    ∀ s : List Char, '\n' ∉ s → toolActionSearch s = specSpan s := by
  intro s
  induction s with
  | nil => intro _; rw [specSpan_nil]; rfl
  | cons c rest ih =>
    intro h
    have hrest : '\n' ∉ rest := fun hm => h (List.mem_cons_of_mem c hm)
    by_cases hlit : TOOL_ACTION_lit.isPrefixOf (c :: rest) = true
    · have hlit0 : litAt (c :: rest) 0 = true := by
        rw [litAt, List.drop_zero]
        exact hlit
      rw [toolActionSearch, if_pos hlit, specSpan_cons_of_lit hlit0]
      have hnl12 : '\n' ∉ List.drop 12 (c :: rest) :=
        fun hm => h (List.drop_subset 12 (c :: rest) hm)
      rw [findCloseParen_eq hnl12]
      by_cases hcp : (List.drop 12 (c :: rest)).contains ')' = true
      · rw [if_pos hcp]
      · rw [if_neg hcp]
        show toolActionSearch rest = none
        rw [ih hrest]
        cases hss : specSpan rest with
        | none => rfl
        | some sp =>
          exfalso
          rw [specSpan] at hss
          cases hf : (List.range rest.length).find? (litAt rest) with
          | none => rw [hf] at hss; simp at hss
          | some j =>
            rw [hf] at hss
            simp only at hss
            by_cases hc2 : (rest.drop (j + 12)).contains ')' = true
            · have hjmem : ')' ∈ rest.drop (j + 12) := contains_char_iff.mp hc2
              have hdd : rest.drop (j + 12) = List.drop (j + 1) (List.drop 12 (c :: rest)) := by
                rw [List.drop_drop]
                rw [show 12 + (j + 1) = (j + 12) + 1 from by omega]
                rw [List.drop_succ_cons]
              rw [hdd] at hjmem
              have : ')' ∈ List.drop 12 (c :: rest) :=
                List.drop_subset (j + 1) _ hjmem
              exact hcp (contains_char_iff.mpr this)
            · rw [if_neg hc2] at hss
              exact Option.noConfusion hss
    · have hlit0 : litAt (c :: rest) 0 = false := by
        rw [litAt, List.drop_zero]
        simp only [Bool.not_eq_true] at hlit
        exact hlit
      rw [toolActionSearch, if_neg hlit, ih hrest,
        specSpan_cons_of_not_lit hlit0]

/-! ## Claim C2 -/

/-- **C2** (code bug): on `TOOL_ACTION("LIST_DIR", "C:\\temp")` the code
returns the argument as `C:\` + TAB + `emp`, not `C:\temp`: the decode
chain runs `replace('\\t', TAB)` before `replace('\\\\', '\\')`, so the
second backslash of the doubled pair fuses with the following `t` into a
tab. The theorem evaluates `parse_tool_action` at the failing input. -/
theorem c2_escape_decode_bug :
    parse_tool_action "TOOL_ACTION(\"LIST_DIR\", \"C:\\\\temp\")".data =
      (some "LIST_DIR".data, some ["C:\\\temp".data]) ∧
    ("C:\\\temp".data : List Char) ≠ "C:\\temp".data :=
  ⟨by decide, by decide⟩

/-! ## Claim C3 -/

/-- C3 counterexample: a closing parenthesis inside a quoted argument ends
the captured span, because the lazy group stops at the first `)`. On
`TOOL_ACTION("ECHO", "a)b")` the code returns no arguments at all, not
`["a)b"]` as capture-to-the-matching-parenthesis would give. -/
theorem c3_paren_in_quotes_counterexample :
    parse_tool_action "TOOL_ACTION(\"ECHO\", \"a)b\")".data =
      (some "ECHO".data, some []) ∧
    parse_tool_action "TOOL_ACTION(\"ECHO\", \"a)b\")".data ≠
      (some "ECHO".data, some ["a)b".data]) :=
  ⟨by decide, by decide⟩

/-- **C3** (amended): for every input line (no embedded newline, as the
dispatcher feeds single lines), `parse_tool_action` captures the span
between the first occurrence of `TOOL_ACTION(` and the first `)` after it —
also when that `)` sits inside a quoted argument — then takes the quoted
substrings of that span in order: the first is the tool name and the rest,
escape-decoded, are the arguments. -/
theorem c3_lazy_capture_amended (line : List Char) (h : '\n' ∉ line) :
    parse_tool_action line =
      (match specSpan (pyStrip line) with
       | none => (none, none)
       | some span =>
         match findAllQuoted span with
         | [] => (none, none)
         | name :: args => (some name, some (args.map decodeArg))) := by
  rw [parse_tool_action,
    toolActionSearch_eq_specSpan _ (fun hm => h (mem_of_mem_pyStrip hm))]

/-- C3 witness: the amended capture description evaluated on a concrete
line whose argument holds a parenthesis. -/
theorem c3_lazy_capture_witness :
    ('\n' ∉ "TOOL_ACTION(\"ECHO\", \"a(b\")".data) ∧
    parse_tool_action "TOOL_ACTION(\"ECHO\", \"a(b\")".data =
      (match specSpan (pyStrip "TOOL_ACTION(\"ECHO\", \"a(b\")".data) with
       | none => (none, none)
       | some span =>
         match findAllQuoted span with
         | [] => (none, none)
         | name :: args => (some name, some (args.map decodeArg))) :=
  ⟨by decide, c3_lazy_capture_amended _ (by decide)⟩

/-! ## Claim C10 -/

/-- **C10**: when the `TOOL_ACTION(...)` pattern matches but the captured
span holds no double-quoted substring, `parse_tool_action` returns
`(None, None)` exactly as when no tool call is present, and the dispatcher
performs no invocation and emits nothing for that line. -/
theorem c10_no_quoted_args (line span : List Char)
    (h1 : toolActionSearch (pyStrip line) = some span)
    (h2 : findAllQuoted span = []) :
    parse_tool_action line = (none, none) ∧
    ∀ (registry : List (List Char))
      (exec : List Char → List (List Char) → List Char × Bool)
      (chatReply : List Char → Option (List Char)),
      dispatchLine registry exec chatReply line = ([], []) := by
  have hp : parse_tool_action line = (none, none) := by
    rw [parse_tool_action, h1]
    simp [h2]
  refine ⟨hp, fun registry exec chatReply => ?_⟩
  rw [dispatchLine, hp]

/-- C10 witness: `TOOL_ACTION(foo)` matches the pattern, has no quoted
substring, and is treated as no tool call. -/
theorem c10_no_quoted_args_witness :
    toolActionSearch (pyStrip "TOOL_ACTION(foo)".data) = some "foo".data ∧
    findAllQuoted "foo".data = [] ∧
    (parse_tool_action "TOOL_ACTION(foo)".data = (none, none) ∧
     ∀ (registry : List (List Char))
       (exec : List Char → List (List Char) → List Char × Bool)
       (chatReply : List Char → Option (List Char)),
       dispatchLine registry exec chatReply "TOOL_ACTION(foo)".data = ([], [])) :=
  ⟨by decide, by decide,
    c10_no_quoted_args "TOOL_ACTION(foo)".data "foo".data (by decide) (by decide)⟩

/-! ## Claim C4 -/

/-- C4 counterexample: the dispatcher has no unknown-command branch at all:
`if tool_name and tool_name in TOOL_REGISTRY:` carries no `else`, so on
`TOOL_ACTION("NOT_A_TOOL", "x")` the processing emits only the verbatim
text echo — no "unknown command" report of any kind — and invokes no tool. -/
theorem c4_no_unknown_report_counterexample :
    process_ai_response TOOL_REGISTRY_keys (fun n _ => (n, true)) (fun r => some r)
      [] [] "TOOL_ACTION(\"NOT_A_TOOL\", \"x\")".data =
      ([], [.textMsg "TOOL_ACTION(\"NOT_A_TOOL\", \"x\")".data]) := by
  decide

/-- C4 (amended): dispatching a parsed tool action whose name is not a key
of the static registry does nothing at all: no registered function is
invoked and no message — in particular no "unknown command" report — is
emitted for that line. -/
theorem c4_unknown_name_amended (registry : List (List Char))
    (exec : List Char → List (List Char) → List Char × Bool)
    (chatReply : List Char → Option (List Char)) (line name : List Char)
    (h1 : (parse_tool_action line).1 = some name)
    (h2 : registry.contains name = false) :
    dispatchLine registry exec chatReply line = ([], []) := by
  rcases hp : parse_tool_action line with ⟨nOpt, aOpt⟩
  rw [hp] at h1
  replace h1 : nOpt = some name := h1
  subst h1
  rw [dispatchLine, hp]
  cases aOpt with
  | none => rfl
  | some args =>
    simp [h2]
    intro _ hmem
    exact absurd (contains_iff_mem.mpr hmem) (fun hc => Bool.noConfusion (h2 ▸ hc))

/-- C4 witness: the amended statement applied to the concrete unknown name
`NOT_A_TOOL` against the actual registry keys. -/
theorem c4_unknown_name_witness :
    (parse_tool_action "TOOL_ACTION(\"NOT_A_TOOL\", \"x\")".data).1 =
      some "NOT_A_TOOL".data ∧
    TOOL_REGISTRY_keys.contains "NOT_A_TOOL".data = false ∧
    dispatchLine TOOL_REGISTRY_keys (fun n _ => (n, true)) (fun r => some r)
      "TOOL_ACTION(\"NOT_A_TOOL\", \"x\")".data = ([], []) :=
  ⟨by decide, by decide,
   c4_unknown_name_amended TOOL_REGISTRY_keys (fun n _ => (n, true)) (fun r => some r)
     "TOOL_ACTION(\"NOT_A_TOOL\", \"x\")".data "NOT_A_TOOL".data
     (by decide) (by decide)⟩

/-! ## Claim C5 -/

theorem acceptAll_append (st : BridgeState) (l : List Nat) (s : Nat) :
    acceptAll st (l ++ [s]) = acceptConnection (acceptAll st l) s := by
  rw [acceptAll, acceptAll, List.foldl_append]
  rfl

theorem mem_closed_accept (st : BridgeState) (s : Nat) {x : Nat}
    (h : x ∈ st.closedSockets) : x ∈ (acceptConnection st s).closedSockets := by
  cases hcs : st.clientSocket with
  | none => simpa [acceptConnection, hcs] using h
  | some old =>
    simp only [acceptConnection, hcs]
    exact List.mem_cons_of_mem old h

theorem mem_closed_acceptAll (l : List Nat) : ∀ (st : BridgeState) {x : Nat},
    x ∈ st.closedSockets → x ∈ (acceptAll st l).closedSockets := by
  induction l with
  | nil => intro st x h; exact h
  | cons z zs ih =>
    intro st x h
    rw [show acceptAll st (z :: zs) = acceptAll (acceptConnection st z) zs from rfl]
    exact ih _ (mem_closed_accept st z h)

theorem client_closed_acceptAll (l : List Nat) (hl : l ≠ []) (st : BridgeState)
    (c : Nat) (h : st.clientSocket = some c) :
    c ∈ (acceptAll st l).closedSockets := by
  cases l with
  | nil => exact absurd rfl hl
  | cons z zs =>
    rw [show acceptAll st (z :: zs) = acceptAll (acceptConnection st z) zs from rfl]
    have hc : c ∈ (acceptConnection st z).closedSockets := by
      simp [acceptConnection, h]
    exact mem_closed_acceptAll zs _ hc

theorem mem_of_earlier_closed (l : List Nat) : ∀ (st : BridgeState) {x : Nat},
    x ∈ l → ∀ s : Nat, x ∈ (acceptAll st (l ++ [s])).closedSockets := by
  induction l with
  | nil => intro st x h; cases h
  | cons z zs ih =>
    intro st x h s
    rw [show acceptAll st ((z :: zs) ++ [s]) =
      acceptAll (acceptConnection st z) (zs ++ [s]) from rfl]
    rcases List.mem_cons.mp h with he | hm
    · subst he
      exact client_closed_acceptAll (zs ++ [s]) (by simp) _ x rfl
    · exact ih _ hm s

/-- C5: the Bridge holds at most one client at a time: after any accept
sequence ending with socket `s`, `send_to_gui` targets exactly `s`; every
socket accepted earlier in the sequence has been closed, and so has the
client that was held before the sequence began. -/
theorem c5_single_client (st : BridgeState) (earlier : List Nat) (s : Nat) :
    sendTarget (acceptAll st (earlier ++ [s])) = some s ∧
    (∀ x ∈ earlier, x ∈ (acceptAll st (earlier ++ [s])).closedSockets) ∧
    (∀ old, st.clientSocket = some old →
      old ∈ (acceptAll st (earlier ++ [s])).closedSockets) := by
  refine ⟨?_, ?_, ?_⟩
  · rw [acceptAll_append]
    rfl
  · intro x hx
    exact mem_of_earlier_closed earlier st hx s
  · intro old hold
    exact client_closed_acceptAll (earlier ++ [s]) (by simp) st old hold

/-- C5 witness: with socket 5 already connected, accepting 1, 2 and then 3
leaves 3 as the only send target, with 1 and the old client 5 closed. -/
theorem c5_single_client_witness :
    sendTarget (acceptAll ⟨some 5, true, []⟩ ([1, 2] ++ [3])) = some 3 ∧
    1 ∈ (acceptAll ⟨some 5, true, []⟩ ([1, 2] ++ [3])).closedSockets ∧
    5 ∈ (acceptAll ⟨some 5, true, []⟩ ([1, 2] ++ [3])).closedSockets :=
  ⟨(c5_single_client ⟨some 5, true, []⟩ [1, 2] 3).1,
   (c5_single_client ⟨some 5, true, []⟩ [1, 2] 3).2.1 1 (by decide),
   (c5_single_client ⟨some 5, true, []⟩ [1, 2] 3).2.2 5 rfl⟩

/-! ## Claim C6 -/

theorem getKey_setKey_self {κ α : Type} [DecidableEq κ] (l : List (κ × α))
    (k : κ) (v : α) : getKey (setKey l k v) k = some v := by
  induction l with
  | nil => simp [setKey, getKey]
  | cons kv rest ih =>
    obtain ⟨k', v'⟩ := kv
    by_cases h : k' = k
    · rw [setKey, if_pos h, getKey, if_pos rfl]
    · rw [setKey, if_neg h, getKey, if_neg h, ih]

/-- C6 counterexample: when the agent script is missing from disk, or when
`subprocess.Popen` raises, `_launch_agent` on a fresh `agent_id` spawns
nothing and records nothing — not the "exactly one new OS process spawned
and recorded" the claim requires of every request without a live agent. -/
theorem c6_launch_error_counterexample :
    launch_agent ⟨false, true⟩ 7 [] "agent1".data "ws://localhost".data = ([], []) ∧
    launch_agent ⟨true, false⟩ 7 [] "agent1".data "ws://localhost".data = ([], []) :=
  ⟨rfl, rfl⟩

/-- C6 (amended): when the id maps to a live process the request leaves the
registry unchanged and spawns nothing; on a fresh or dead id, exactly one
process running the agent script with the URL as argument is spawned and
recorded under the id — provided the script exists on disk and `Popen`
succeeds; when the script is missing or `Popen` raises, nothing is spawned
and the registry is unchanged. -/
theorem c6_launch_amended (env : LaunchEnv) (newPid : Nat)
    (registry : List (List Char × AgentProc)) (agent_id url : List Char) :
    (∀ p, getKey registry agent_id = some p → p.alive = true →
      launch_agent env newPid registry agent_id url = (registry, [])) ∧
    ((∀ p, getKey registry agent_id = some p → p.alive = false) →
      if env.scriptExists && env.popenOk then
        launch_agent env newPid registry agent_id url =
          (setKey registry agent_id ⟨newPid, true⟩, [(newPid, agentScript, url)]) ∧
        getKey (launch_agent env newPid registry agent_id url).1 agent_id =
          some ⟨newPid, true⟩
      else launch_agent env newPid registry agent_id url = (registry, [])) := by
  cases hget : getKey registry agent_id with
  | some p =>
    cases hal : p.alive with
    | true =>
      constructor
      · intro q hq _
        simp [launch_agent, hget, hal]
      · intro hdead
        exact absurd (hdead p rfl) (by simp [hal])
    | false =>
      constructor
      · intro q hq hqa
        obtain rfl : p = q := Option.some.inj hq
        exact absurd hqa (by simp [hal])
      · intro _
        cases hs : env.scriptExists with
        | false =>
          rw [if_neg (by simp [hs])]
          simp [launch_agent, hget, hal, hs]
        | true =>
          cases ho : env.popenOk with
          | false =>
            rw [if_neg (by simp [ho])]
            simp [launch_agent, hget, hal, hs, ho]
          | true =>
            rw [if_pos (by simp [hs, ho])]
            have he : launch_agent env newPid registry agent_id url =
                (setKey registry agent_id ⟨newPid, true⟩,
                 [(newPid, agentScript, url)]) := by
              simp [launch_agent, hget, hal, hs, ho]
            exact ⟨he, by
              rw [he]
              exact getKey_setKey_self registry agent_id ⟨newPid, true⟩⟩
  | none =>
    constructor
    · intro q hq _
      exact absurd hq (by simp)
    · intro _
      cases hs : env.scriptExists with
      | false =>
        rw [if_neg (by simp [hs])]
        simp [launch_agent, hget, hs]
      | true =>
        cases ho : env.popenOk with
        | false =>
          rw [if_neg (by simp [ho])]
          simp [launch_agent, hget, hs, ho]
        | true =>
          rw [if_pos (by simp [hs, ho])]
          have he : launch_agent env newPid registry agent_id url =
              (setKey registry agent_id ⟨newPid, true⟩,
               [(newPid, agentScript, url)]) := by
            simp [launch_agent, hget, hs, ho]
          exact ⟨he, by
            rw [he]
            exact getKey_setKey_self registry agent_id ⟨newPid, true⟩⟩

/-- C6 witness: a live `agent1` makes the launch a no-op; a fresh `agent2`
with the script present and `Popen` succeeding spawns one process and
records it under the id. -/
theorem c6_launch_witness :
    launch_agent ⟨true, true⟩ 9 [("agent1".data, ⟨3, true⟩)] "agent1".data "u".data =
      ([("agent1".data, ⟨3, true⟩)], []) ∧
    (launch_agent ⟨true, true⟩ 9 [] "agent2".data "u".data =
       (setKey [] "agent2".data ⟨9, true⟩, [(9, agentScript, "u".data)]) ∧
     getKey (launch_agent ⟨true, true⟩ 9 [] "agent2".data "u".data).1 "agent2".data =
       some ⟨9, true⟩) :=
  ⟨(c6_launch_amended ⟨true, true⟩ 9 [("agent1".data, ⟨3, true⟩)]
      "agent1".data "u".data).1 ⟨3, true⟩ (by decide) rfl,
   by
     have h := (c6_launch_amended ⟨true, true⟩ 9 [] "agent2".data "u".data).2
       (fun p hp => by simp [getKey] at hp)
     simpa using h⟩

/-! ## Claim C7 -/

theorem mem_pid_of_stop {registry : List (List Char × AgentProc)} {x : Nat}
    (h : x ∈ stopTerminations registry) :
    x ∈ registry.map (fun kv => kv.2.pid) := by
  rw [stopTerminations] at h
  rcases List.mem_filterMap.mp h with ⟨kv, hkv, hx⟩
  cases ha : kv.2.alive with
  | false => simp [ha] at hx
  | true =>
    simp [ha] at hx
    exact List.mem_map.mpr ⟨kv, hkv, hx⟩

theorem count_stop_zero {registry : List (List Char × AgentProc)} {x : Nat}
    (h : x ∉ registry.map (fun kv => kv.2.pid)) :
    (stopTerminations registry).count x = 0 :=
  List.count_eq_zero.mpr (fun hm => h (mem_pid_of_stop hm))

/-- C7 counterexample: a registered process that has already exited
(`poll()` not `None`) is skipped by `stop()`: nothing is terminated even
though pid 1 is recorded in the registry, against the claim that every
previously-registered process receives `terminate()`. -/
theorem c7_dead_not_terminated_counterexample :
    stopTerminations [("agent1".data, ⟨1, false⟩)] = [] := rfl

/-- C7 (amended): `stop()` invokes `terminate()` exactly once on every
registered process that is still running (`poll()` is `None`), and not at
all on a registered process that has already exited (registry pids
pairwise distinct). -/
theorem c7_stop_amended (registry : List (List Char × AgentProc))
    (hnd : (registry.map (fun kv => kv.2.pid)).Nodup)
    (agent_id : List Char) (p : AgentProc) (hmem : (agent_id, p) ∈ registry) :
    (stopTerminations registry).count p.pid = if p.alive then 1 else 0 := by
  revert hnd hmem
  induction registry with
  | nil => intro _ hmem; cases hmem
  | cons kv rest ih =>
    intro hnd hmem
    obtain ⟨k1, q⟩ := kv
    rw [List.map_cons, List.nodup_cons] at hnd
    have hstep : stopTerminations ((k1, q) :: rest) =
        (if q.alive then [q.pid] else []) ++ stopTerminations rest := by
      cases hal : q.alive <;> simp [stopTerminations, List.filterMap_cons, hal]
    rcases List.mem_cons.mp hmem with he | hm
    · injection he with he1 he2
      subst he1
      subst he2
      rw [hstep, List.count_append]
      have h0 : (stopTerminations rest).count p.pid = 0 :=
        count_stop_zero hnd.1
      cases hal : p.alive with
      | true => simp [hal, h0, List.count_cons]
      | false => simp [hal, h0]
    · have hpmem : p.pid ∈ rest.map (fun kv => kv.2.pid) :=
        List.mem_map.mpr ⟨(agent_id, p), hm, rfl⟩
      have hne : p.pid ≠ q.pid := fun he => hnd.1 (he ▸ hpmem)
      rw [hstep, List.count_append, ih hnd.2 hm]
      cases hal : q.alive with
      | true =>
        have h0 : List.count p.pid [q.pid] = 0 :=
          List.count_eq_zero.mpr (by simpa using hne)
        simp [h0]
      | false => simp

/-- C7 witness: the amended count evaluated on a registry holding one live
and one exited process: the live pid 1 is terminated once, the exited pid
2 not at all. -/
theorem c7_stop_witness :
    (stopTerminations [("a".data, ⟨1, true⟩), ("b".data, ⟨2, false⟩)]).count 1 = 1 ∧
    (stopTerminations [("a".data, ⟨1, true⟩), ("b".data, ⟨2, false⟩)]).count 2 = 0 :=
  ⟨c7_stop_amended [("a".data, ⟨1, true⟩), ("b".data, ⟨2, false⟩)] (by decide)
     "a".data ⟨1, true⟩ (by decide),
   c7_stop_amended [("a".data, ⟨1, true⟩), ("b".data, ⟨2, false⟩)] (by decide)
     "b".data ⟨2, false⟩ (by decide)⟩

/-! ## Claim C8 -/

/-- C8 counterexample: a non-empty line that is not valid JSON does not
always terminate the read loop: the whitespace line `" "` fails
`line.strip()` and is skipped — the loop keeps running, delivers nothing,
and the disconnect handling does not fire. -/
theorem c8_whitespace_line_counterexample :
    relayListen 1 "T0".data [" \n".data] = ([], .stillOpen) ∧
    disconnectFired (relayListen 1 "T0".data [" \n".data]).2 = false := by
  exact ⟨by decide, by decide⟩

theorem drainBuffer_bad (ncb fuel : Nat) (now l : List Char)
    (h1 : 0 < ncb) (h2 : pyStrip l ≠ []) (h3 : '\n' ∉ l)
    (h4 : relay_from_json now l = none) :
    drainBuffer ncb now (fuel + 1) (l ++ '\n' :: []) = (none, []) := by
  rw [drainBuffer, splitNl_frame h3 []]
  show (if pyStrip l ≠ [] ∧ 0 < ncb then
          match relay_from_json now l with
          | none => ((none : Option (List Char)), ([] : List SimpleMessage))
          | some m =>
            let r := drainBuffer ncb now fuel []
            (r.1, m :: r.2)
        else drainBuffer ncb now fuel []) = (none, [])
  rw [if_pos ⟨h2, h1⟩, h4]

/-- C8 (amended): with at least one registered callback, receipt of a
complete line that strips non-blank and fails JSON parsing terminates the
connection's read loop at once: nothing is delivered, the loop ends by the
raised parse error (so the Bridge marks itself disconnected and fires the
disconnect callbacks), and any later chunks are never processed — the
result does not depend on `restChunks`. -/
theorem c8_malformed_line_amended (ncb : Nat) (now l : List Char)
    (restChunks : List (List Char))
    (h1 : 0 < ncb) (h2 : pyStrip l ≠ []) (h3 : '\n' ∉ l)
    (h4 : relay_from_json now l = none) :
    relayListen ncb now ((l ++ '\n' :: []) :: restChunks) = ([], .errorStop) ∧
    disconnectFired (relayListen ncb now ((l ++ '\n' :: []) :: restChunks)).2 = true := by
  have hmain : relayListen ncb now ((l ++ '\n' :: []) :: restChunks) =
      ([], .errorStop) := by
    rw [relayListen, relayListenGo]
    rw [if_neg (by simp : ¬(l ++ '\n' :: [] = []))]
    simp only [List.nil_append]
    rw [show (l ++ '\n' :: []).length = l.length + 1 by simp]
    rw [drainBuffer_bad ncb l.length now l h1 h2 h3 h4]
  exact ⟨hmain, by rw [hmain]; rfl⟩

/-- C8 witness: the malformed line `x` with one registered callback stops
the loop with the disconnect handling fired, and the following chunk is
never processed. -/
theorem c8_malformed_line_witness :
    (pyStrip "x".data ≠ [] ∧ relay_from_json "T0".data "x".data = none) ∧
    relayListen 1 "T0".data (("x".data ++ '\n' :: []) :: ["y\n".data]) =
      ([], .errorStop) :=
  ⟨⟨by decide, by decide⟩,
   (c8_malformed_line_amended 1 "T0".data "x".data ["y\n".data]
     (by decide) (by decide) (by decide) (by decide)).1⟩

/-! ## Claim C9 -/

/-- C9: when the GUI client's read loop ends (read error or empty read),
with at least one registered callback and the Tk root reference set, the
client synthesizes exactly one "manager offline" `status_update` message
and delivers it to callback 0 alone — no other callback index receives an
offline notice — and that message carries agent `System`, metadata type
`status_update` and the `manager: (Offline, red)` payload. -/
theorem c9_offline_first_callback_only (ncb : Nat) (rootRef : Bool)
    (now : List Char) (chunks : List (List Char))
    (h1 : 0 < ncb) (h2 : rootRef = true) :
    (clientListen ncb rootRef now chunks).2 = [(0, offlineMessage now)] ∧
    (∀ i m, (i, m) ∈ (clientListen ncb rootRef now chunks).2 → i = 0) ∧
    offlineMessage now = some
      { agent_id := .str "System".data,
        content := .obj [("manager".data, .arr [.str "Offline".data, .str "red".data])],
        direction := .str "incoming".data,
        timestamp := .str now,
        msg_id := .null,
        metadata := .obj [("type".data, .str "status_update".data)] } := by
  have hn : (clientListen ncb rootRef now chunks).2 = [(0, offlineMessage now)] := by
    show offlineNotices ncb rootRef now = _
    rw [offlineNotices, if_pos ⟨h1, h2⟩]
  refine ⟨hn, ?_, rfl⟩
  intro i m hm
  rw [hn] at hm
  simp only [List.mem_singleton, Prod.mk.injEq] at hm
  exact hm.1

/-- C9 witness: two callbacks, root reference set: only callback 0 gets the
offline notice after the chunks end. -/
theorem c9_offline_witness :
    (clientListen 2 true "T0".data ["hello\n".data]).2 =
      [(0, offlineMessage "T0".data)] :=
  (c9_offline_first_callback_only 2 true "T0".data ["hello\n".data]
    (by decide) rfl).1

end NovaAi
